import Mathlib

/-!
# App-state integrity hashing (`appstate/hash.go`)

A shallow embedding of the accumulator updater (`HashState.updateHash`) and of the
three MAC constructions (`generateSnapshotMAC`, `generatePatchMAC`,
`generateContentMAC`), followed by the properties proved about them.

Conventions of the embedding:
* a Go `[]byte` or `string` is a `List Nat` (every cell a value below 256);
  byte arithmetic carries an explicit `% 256`, 64-bit arithmetic an explicit `% 2 ^ 64`;
* a Go run-time panic (slice bounds out of range) is the result `none`;
* the functions of other packages (`lthash`, `crypto/hmac`) are parameters.
-/

namespace Appstate

/-! ## Data model -/

/-- Go `[]byte`, also used for a Go `string` (a byte sequence). -/
abbrev Bytes := List Nat

/-- Go `[128]byte`: an array of exactly 128 cells. -/
abbrev Hash128 := { l : List Nat // l.length = 128 }

/-- Modelled from the spec: the operation code `SET` of the protocol-buffer enum
`SyncdMutation_SyncdMutationSyncdOperation` (a Go `int32`, declared in the `binary/proto`
package, which is not among the sources). SET is the zero value of the enum. -/
def SyncdMutation_SET : Int := 0

/-- Modelled from the spec: the operation code `REMOVE` of the same enum. -/
def SyncdMutation_REMOVE : Int := 1

/-- Modelled from the spec: the action payload of an applied mutation (the
protocol-buffer message `SyncActionValue`, not among the sources), kept as its bytes. -/
abbrev SyncActionValue := Bytes

/-- Go `type Mutation struct`. -/
structure Mutation where
  Operation : Int
  Action : Option SyncActionValue
  Index : List Bytes
  IndexMAC : Bytes
  ValueMAC : Bytes
  deriving DecidableEq, Repr

/-- Go `type HashState struct`. -/
structure HashState where
  Version : Nat
  Hash : Hash128
  Mutations : List Mutation
  deriving DecidableEq

/-- Modelled from the spec: a decoded mutation record (`*waProto.SyncdMutation`, not among the
sources) as the code reads it, through the accessors `GetOperation()`,
`GetRecord().GetIndex().GetBlob()` and `GetRecord().GetValue().GetBlob()`. An absent
field reads as the zero value: operation SET, empty blob. -/
structure SyncdMutation where
  Operation : Int
  IndexBlob : Bytes
  ValueBlob : Bytes
  deriving DecidableEq, Repr

/-- Modelled from the spec: a decoded patch (`*waProto.SyncdPatch`, not among the sources) as the
code reads it: `GetVersion().GetVersion()` (a `uint64`), `GetMutations()` and
`GetSnapshotMac()`. -/
structure SyncdPatch where
  Version : Nat
  Mutations : List SyncdMutation
  SnapshotMac : Bytes
  deriving DecidableEq, Repr

/-- Modelled from the spec: the distinguished error of the package (declared in another file of
the package): a REMOVE mutation has no resolvable prior SET value. -/
inductive AppStateError where
  | ErrMissingPreviousSetValueOperation
  deriving DecidableEq, Repr

/-- Go `NewHashState`: the zero value of `HashState`. -/
def NewHashState : HashState :=
  { Version := 0, Hash := ⟨List.replicate 128 0, by simp⟩, Mutations := [] }

/-! ## Accumulator updater -/

/-- Go slice expression `value[len(value)-32:]`. The lower bound is the signed
`len(value)-32`; when it is negative the run time panics, which is `none`. -/
def last32 (value : Bytes) : Option Bytes :=
  if 32 ≤ value.length then some (value.drop (value.length - 32)) else none

/-- Local variables of the loop of `updateHash`: `added`, `removed`, and (as a ghost
variable) the calls made to the lookup callback so far, oldest first. -/
structure LoopVars where
  added : List Bytes
  removed : List Bytes
  calls : List (Bytes × Nat)
  deriving DecidableEq, Repr

/-- How the `for ... range` loop of `updateHash` is left. -/
inductive LoopExit where
  /-- The range is exhausted. -/
  | completed (v : LoopVars)
  /-- The statement `return ErrMissingPreviousSetValueOperation` was reached. -/
  | returned (err : AppStateError) (v : LoopVars)
  /-- The slice expression panicked. -/
  | panicked (v : LoopVars)
  deriving DecidableEq, Repr

/-- The loop `for i, mutation := range patch.GetMutations()` of `updateHash`, from
position `i` on, with the local variables `v`. -/
def updateHashLoop (getPrevSetValueMAC : Bytes → Nat → Option Bytes) :
    List SyncdMutation → Nat → LoopVars → LoopExit
  | [], _, v => LoopExit.completed v
  | mutation :: rest, i, v =>
    let addedNow : Option (List Bytes) :=
      if mutation.Operation = SyncdMutation_SET then
        (last32 mutation.ValueBlob).map (fun fp => v.added ++ [fp])
      else some v.added
    match addedNow with
    | none => LoopExit.panicked v
    | some added =>
      let indexMAC := mutation.IndexBlob
      let calls := v.calls ++ [(indexMAC, i)]
      match getPrevSetValueMAC indexMAC i with
      | some removal =>
        updateHashLoop getPrevSetValueMAC rest (i + 1)
          { added := added, removed := v.removed ++ [removal], calls := calls }
      | none =>
        if mutation.Operation = SyncdMutation_REMOVE then
          LoopExit.returned AppStateError.ErrMissingPreviousSetValueOperation
            { added := added, removed := v.removed, calls := calls }
        else
          updateHashLoop getPrevSetValueMAC rest (i + 1)
            { added := added, removed := v.removed, calls := calls }

/-- Go `(hs *HashState) updateHash`. The receiver is updated in place, so the result
carries the state after the call next to the returned `error` (`none` is Go `nil`);
the outer `none` is a panic. `SubtractThenAddInPlace` is
`lthash.WAPatchIntegrity.SubtractThenAddInPlace` applied to `hs.Hash[:]`. -/
def HashState.updateHash
    (SubtractThenAddInPlace : Hash128 → List Bytes → List Bytes → Hash128)
    (hs : HashState) (patch : SyncdPatch)
    (getPrevSetValueMAC : Bytes → Nat → Option Bytes) :
    Option (Option AppStateError × HashState) :=
  match updateHashLoop getPrevSetValueMAC patch.Mutations 0
      { added := [], removed := [], calls := [] } with
  | LoopExit.completed v =>
    some (none, { hs with Hash := SubtractThenAddInPlace hs.Hash v.removed v.added })
  | LoopExit.returned err _ => some (some err, hs)
  | LoopExit.panicked _ => none

/-- The calls made to the lookup callback during one `updateHash`, oldest first. -/
def HashState.updateHashCalls (patch : SyncdPatch)
    (getPrevSetValueMAC : Bytes → Nat → Option Bytes) : List (Bytes × Nat) :=
  match updateHashLoop getPrevSetValueMAC patch.Mutations 0
      { added := [], removed := [], calls := [] } with
  | LoopExit.completed v => v.calls
  | LoopExit.returned _ v => v.calls
  | LoopExit.panicked v => v.calls

/-- The local variables of the loop at the moment it is left. -/
def LoopExit.vars : LoopExit → LoopVars
  | LoopExit.completed v => v
  | LoopExit.returned _ v => v
  | LoopExit.panicked v => v

/-- The receiver `*hs` at the moment `updateHash` is left, whichever way it is left: the
only write to it is the call of `SubtractThenAddInPlace` on `hs.Hash[:]` after the loop;
on the early return and on a panic nothing has been written. -/
def HashState.updateHashReceiver
    (SubtractThenAddInPlace : Hash128 → List Bytes → List Bytes → Hash128)
    (hs : HashState) (patch : SyncdPatch)
    (getPrevSetValueMAC : Bytes → Nat → Option Bytes) : HashState :=
  match updateHashLoop getPrevSetValueMAC patch.Mutations 0
      { added := [], removed := [], calls := [] } with
  | LoopExit.completed v =>
    { hs with Hash := SubtractThenAddInPlace hs.Hash v.removed v.added }
  | LoopExit.returned _ _ => hs
  | LoopExit.panicked _ => hs

/-! ## Byte encoding and MAC generators -/

/-- Go `binary.BigEndian.PutUint64(b, v)`: `b[0] = byte(v >> 56)`, ..., `b[7] = byte(v)`. -/
def PutUint64 (b : Bytes) (v : Nat) : Bytes :=
  (((((((b.set 0 (v / 2 ^ 56 % 256)).set 1 (v / 2 ^ 48 % 256)).set 2 (v / 2 ^ 40 % 256)).set 3
    (v / 2 ^ 32 % 256)).set 4 (v / 2 ^ 24 % 256)).set 5 (v / 2 ^ 16 % 256)).set 6
    (v / 2 ^ 8 % 256)).set 7 (v % 256)

/-- Go `uint64ToBytes`. -/
def uint64ToBytes (val : Nat) : Bytes :=
  PutUint64 (List.replicate 8 0) val

/-- The keyed hash of the Go standard library for one underlying hash (`sha256.New` or
`sha512.New`): key, then message, to tag. The library is a parameter of the model. -/
abbrev KeyedHash := Bytes → Bytes → Bytes

/-- Go `hash.Hash` as returned by `hmac.New(alg, key)`: the bytes written so far. -/
structure HMAC where
  alg : KeyedHash
  key : Bytes
  written : Bytes

/-- Go `hmac.New`. -/
def hmacNew (alg : KeyedHash) (key : Bytes) : HMAC :=
  { alg := alg, key := key, written := [] }

/-- Go `h.Write(item)`. -/
def HMAC.Write (h : HMAC) (item : Bytes) : HMAC :=
  { h with written := h.written ++ item }

/-- Go `h.Sum(b)`: the tag of everything written, appended to `b`. -/
def HMAC.Sum (h : HMAC) (b : Bytes) : Bytes :=
  b ++ h.alg h.key h.written

/-- The hash object of `concatAndHMAC` after its loop `for _, item := range data`. -/
def concatAndHMACState (alg : KeyedHash) (key : Bytes) (data : List Bytes) : HMAC :=
  data.foldl HMAC.Write (hmacNew alg key)

/-- Go `concatAndHMAC`. -/
def concatAndHMAC (alg : KeyedHash) (key : Bytes) (data : List Bytes) : Bytes :=
  (concatAndHMACState alg key data).Sum []

/-- The arguments `data...` that `generateSnapshotMAC` passes to `concatAndHMAC`. -/
def HashState.snapshotMACData (hs : HashState) (name : Bytes) : List Bytes :=
  [hs.Hash.val, uint64ToBytes hs.Version, name]

/-- Go `(hs *HashState) generateSnapshotMAC`; `sha256New` is the keyed hash over SHA-256. -/
def HashState.generateSnapshotMAC (sha256New : KeyedHash) (hs : HashState)
    (name : Bytes) (key : Bytes) : Bytes :=
  concatAndHMAC sha256New key (hs.snapshotMACData name)

/-- The loop `for i, mutation := range patch.Mutations` of `generatePatchMAC`, from
position `i` on; `none` when the slice expression panics. -/
def patchMACLoop : List SyncdMutation → Nat → List Bytes → Option (List Bytes)
  | [], _, dataToHash => some dataToHash
  | mutation :: rest, i, dataToHash =>
    match last32 mutation.ValueBlob with
    | none => none
    | some fp => patchMACLoop rest (i + 1) (dataToHash.set (i + 1) fp)

/-- The slice `dataToHash` that `generatePatchMAC` passes to `concatAndHMAC`. -/
def patchMACData (patch : SyncdPatch) (name : Bytes) : Option (List Bytes) :=
  let dataToHash : List Bytes := List.replicate (patch.Mutations.length + 3) []
  let dataToHash := dataToHash.set 0 patch.SnapshotMac
  match patchMACLoop patch.Mutations 0 dataToHash with
  | none => none
  | some dataToHash =>
    let dataToHash := dataToHash.set (dataToHash.length - 2) (uint64ToBytes patch.Version)
    some (dataToHash.set (dataToHash.length - 1) name)

/-- Go `generatePatchMAC`; `none` when it panics. -/
def generatePatchMAC (sha256New : KeyedHash) (patch : SyncdPatch) (name : Bytes)
    (key : Bytes) : Option Bytes :=
  (patchMACData patch name).map (fun dataToHash => concatAndHMAC sha256New key dataToHash)

/-- The byte `byte(operation) + 1` of `generateContentMAC`: the conversion keeps the
low 8 bits of the `int32`, the addition wraps at 256. -/
def operationByte (operation : Int) : Nat :=
  ((operation % 256).toNat + 1) % 256

/-- The arguments `data...` that `generateContentMAC` passes to `concatAndHMAC`. -/
def contentMACData (operation : Int) (data keyID : Bytes) : List Bytes :=
  let operationBytes : Bytes := [operationByte operation]
  let keyDataLength := uint64ToBytes ((keyID.length + 1) % 2 ^ 64)
  [operationBytes, keyID, data, keyDataLength]

/-- Go slice expression `b[:32]`; it panics (`none`) when `b` is shorter than 32. -/
def first32 (b : Bytes) : Option Bytes :=
  if 32 ≤ b.length then some (b.take 32) else none

/-- Go `generateContentMAC`; `sha512New` is the keyed hash over SHA-512. -/
def generateContentMAC (sha512New : KeyedHash) (operation : Int) (data keyID key : Bytes) :
    Option Bytes :=
  first32 (concatAndHMAC sha512New key (contentMACData operation data keyID))

/-- The bytes that `generateSnapshotMAC` has written to the keyed hash when it asks for
the tag. -/
def HashState.snapshotMACWritten (sha256New : KeyedHash) (hs : HashState)
    (name key : Bytes) : Bytes :=
  (concatAndHMACState sha256New key (hs.snapshotMACData name)).written

/-- The bytes that `generatePatchMAC` has written to the keyed hash when it asks for the
tag; `none` when it panics before. -/
def patchMACWritten (sha256New : KeyedHash) (patch : SyncdPatch) (name key : Bytes) :
    Option Bytes :=
  (patchMACData patch name).map
    (fun dataToHash => (concatAndHMACState sha256New key dataToHash).written)

/-- The bytes that `generateContentMAC` has written to the keyed hash when it asks for
the tag. -/
def contentMACWritten (sha512New : KeyedHash) (operation : Int) (data keyID key : Bytes) :
    Bytes :=
  (concatAndHMACState sha512New key (contentMACData operation data keyID)).written

/-! ## Specification-side notions -/

/-- The trailing 32 bytes of a blob (the fingerprint of a value blob), as the
specification words it. -/
def trailing32 (blob : Bytes) : Bytes :=
  blob.drop (blob.length - 32)

/-- The list `added` of the specification: the fingerprint of every mutation with
operation SET, in patch order. -/
def specAdded (mutations : List SyncdMutation) : List Bytes :=
  (mutations.filter (fun m => decide (m.Operation = SyncdMutation_SET))).map
    (fun m => trailing32 m.ValueBlob)

/-- The list `removed` of the specification: for every mutation (SET or REMOVE), at its
position in the patch, the result of the lookup when there is one, in patch order. -/
def specRemoved (lookup : Bytes → Nat → Option Bytes) (mutations : List SyncdMutation) :
    List Bytes :=
  (mutations.enumFrom 0).filterMap (fun p => lookup p.2.IndexBlob p.1)

/-- The fixed-width big-endian encoding of a 64-bit counter, as the specification words
it: eight base-256 digits, most significant first. -/
def bigEndian64 (v : Nat) : Bytes :=
  (List.range 8).map (fun i => v / 256 ^ (7 - i) % 256)

/-- The big-endian reading of eight bytes `b_0 .. b_7`: the sum of `b_i * 256 ^ (7 - i)`. -/
def bigEndianValue (b : Bytes) : Nat :=
  ((List.range 8).map (fun i => b.getD i 0 * 256 ^ (7 - i))).sum

/-- The one byte that holds the operation code plus one. -/
def operationCodePlusOne (operation : Int) : Nat :=
  ((operation + 1) % 256).toNat

/-- Position `k` holds a REMOVE mutation for which the lookup has no prior value. -/
def UnresolvedRemoveAt (lookup : Bytes → Nat → Option Bytes) (mutations : List SyncdMutation)
    (k : Nat) : Prop :=
  ∃ m, mutations[k]? = some m ∧ m.Operation = SyncdMutation_REMOVE ∧
    lookup m.IndexBlob k = none

/-- The collection as the specification models it: a map from index to fingerprint, kept
as a list of entries (index, fingerprint). -/
abbrev Store := List (Bytes × Bytes)

/-- A store is a map when no index has two entries. -/
def Store.IsMap (s : Store) : Prop :=
  (s.map Prod.fst).Nodup

instance Store.decidableIsMap (s : Store) : Decidable (Store.IsMap s) := by
  unfold Store.IsMap; infer_instance

/-- The entry of the map for an index. -/
def Store.entry : Store → Bytes → Option Bytes
  | [], _ => none
  | (k, fp) :: rest, index => if k = index then some fp else Store.entry rest index

/-- REMOVE(index) clears the entry. -/
def Store.clear (s : Store) (index : Bytes) : Store :=
  s.filter (fun e => decide (e.1 ≠ index))

/-- SET(index, F) stores F, in place of what the index held. -/
def Store.put (s : Store) (index fp : Bytes) : Store :=
  (index, fp) :: Store.clear s index

/-- The effect of one mutation on the map: a SET stores the trailing 32 bytes of its value
blob under its index blob, a REMOVE clears the entry of its index blob; the
specification has no other operation, and the map ignores any other code. -/
def Store.apply (s : Store) (m : SyncdMutation) : Store :=
  if m.Operation = SyncdMutation_SET then Store.put s m.IndexBlob (trailing32 m.ValueBlob)
  else if m.Operation = SyncdMutation_REMOVE then Store.clear s m.IndexBlob
  else s

/-- The map after a list of mutations, applied in order. -/
def Store.applyAll (s : Store) (mutations : List SyncdMutation) : Store :=
  mutations.foldl Store.apply s

/-- The faithful lookup for a patch applied to the map `s`: for mutation `i` it returns
the entry of the asked index after mutations `0 .. i-1` of the patch. -/
def faithfulLookup (s : Store) (mutations : List SyncdMutation) : Bytes → Nat → Option Bytes :=
  fun index i => Store.entry (Store.applyAll s (mutations.take i)) index

/-- The combination, in a commutative group, of exactly the fingerprints present in the
map; `enc` sends a fingerprint to its group element. -/
def combination {G : Type} [AddCommGroup G] (enc : Bytes → G) (s : Store) : G :=
  (s.map (fun e => enc e.2)).sum

/-- The mutation with its value blob emptied unless it is a SET. -/
def dropOtherBlob (m : SyncdMutation) : SyncdMutation :=
  if m.Operation = SyncdMutation_SET then m else { m with ValueBlob := [] }

/-- The full sequence of lookup calls of the specification for a mutation list: one call
per mutation, in ascending position, the position bound being the position itself. -/
def specCalls (mutations : List SyncdMutation) : List (Bytes × Nat) :=
  (mutations.enumFrom 0).map (fun p => (p.2.IndexBlob, p.1))

/-- A patch with one mutation, whose value blob is `F`, and the snapshot MAC `S`. -/
def patchOneValue (version : Nat) (S F index : Bytes) (operation : Int) : SyncdPatch :=
  { Version := version,
    Mutations := [{ Operation := operation, IndexBlob := index, ValueBlob := F }],
    SnapshotMac := S }

/-- A patch with no mutation and the snapshot MAC `S ++ F`. -/
def patchLongCommitment (version : Nat) (S F : Bytes) : SyncdPatch :=
  { Version := version, Mutations := [], SnapshotMac := S ++ F }

/-! ## Concrete instances, used to exercise the statements -/

/-- A stand-in for the accumulator primitive: cell `k` of the buffer is combined, modulo
256, with byte `k % 32` of every fingerprint, subtracted for `subtract` and added for
`add`. -/
def bytewiseSubtractThenAdd (base : Hash128) (subtract add : List Bytes) : Hash128 :=
  ⟨(List.range 128).map (fun k =>
      (((base.val.getD k 0 : Nat) : ZMod 256)
        - (subtract.map (fun f => ((f.getD (k % 32) 0 : Nat) : ZMod 256))).sum
        + (add.map (fun f => ((f.getD (k % 32) 0 : Nat) : ZMod 256))).sum).val),
    by simp⟩

/-- A 32-byte fingerprint: 1, 2, ..., 32. -/
def fpOne : Bytes := List.range' 1 32

/-- An index blob. -/
def indexOne : Bytes := [7]

/-- A patch that sets `indexOne` to a value ending in `fpOne`, then removes it. -/
def patchSetRemove : SyncdPatch :=
  { Version := 1,
    Mutations := [
      { Operation := SyncdMutation_SET, IndexBlob := indexOne, ValueBlob := [9, 9] ++ fpOne },
      { Operation := SyncdMutation_REMOVE, IndexBlob := indexOne, ValueBlob := [] }],
    SnapshotMac := [] }

/-- A lookup that knows `indexOne` from position 1 on. -/
def lookupAfterSet : Bytes → Nat → Option Bytes :=
  fun indexMAC maxIndex => if indexMAC = indexOne ∧ 1 ≤ maxIndex then some fpOne else none

/-- A patch whose second mutation removes an index nobody set; the third mutation is a
SET with an empty value blob. -/
def patchBadRemove : SyncdPatch :=
  { Version := 1,
    Mutations := [
      { Operation := SyncdMutation_SET, IndexBlob := indexOne, ValueBlob := [9, 9] ++ fpOne },
      { Operation := SyncdMutation_REMOVE, IndexBlob := [8], ValueBlob := [] },
      { Operation := SyncdMutation_SET, IndexBlob := [5], ValueBlob := [] }],
    SnapshotMac := [] }

/-- A lookup that knows nothing. -/
def lookupNothing : Bytes → Nat → Option Bytes :=
  fun _ _ => none

/-- A stand-in for a keyed hash with tags of `n` bytes: a position-dependent checksum of
key and message. -/
def checksumHash (n : Nat) : KeyedHash :=
  fun key message =>
    (List.range n).map (fun i => (key.sum + message.sum + (i + 1) * message.length) % 256)

/-- A REMOVE of the index `[8]` with a value blob of 32 bytes 4. -/
def removeEight : SyncdMutation :=
  { Operation := SyncdMutation_REMOVE, IndexBlob := [8], ValueBlob := List.replicate 32 4 }

/-- A patch of a SET and a REMOVE whose value blobs both have 32 bytes or more. -/
def patchTwoValues : SyncdPatch :=
  { Version := 258,
    Mutations := [
      { Operation := SyncdMutation_SET, IndexBlob := indexOne, ValueBlob := [9, 9] ++ fpOne },
      { Operation := SyncdMutation_REMOVE, IndexBlob := [8], ValueBlob := List.replicate 32 4 }],
    SnapshotMac := [6, 6, 6] }

/-- The group element of a fingerprint under `bytewiseSubtractThenAdd`: cell `k` holds
byte `k % 32` of the fingerprint, modulo 256. -/
def bytewiseEnc (f : Bytes) : Fin 128 → ZMod 256 :=
  fun k => ((f.getD (k.val % 32) 0 : Nat) : ZMod 256)

/-- The group element of an accumulator under `bytewiseSubtractThenAdd`: its cells modulo
256. -/
def bytewiseVal (acc : Hash128) : Fin 128 → ZMod 256 :=
  fun k => ((acc.val.getD k.val 0 : Nat) : ZMod 256)

/-- A patch that sets two indexes, replaces the value of the first and removes the
second. -/
def patchReplace : SyncdPatch :=
  { Version := 2,
    Mutations := [
      { Operation := SyncdMutation_SET, IndexBlob := indexOne, ValueBlob := [9, 9] ++ fpOne },
      { Operation := SyncdMutation_SET, IndexBlob := [8], ValueBlob := List.replicate 32 4 },
      { Operation := SyncdMutation_SET, IndexBlob := indexOne, ValueBlob := List.replicate 33 3 },
      { Operation := SyncdMutation_REMOVE, IndexBlob := [8], ValueBlob := [] }],
    SnapshotMac := [] }

/-- A lookup whose answer does not depend on the position: it knows the index `[8]`. -/
def lookupEight : Bytes → Nat → Option Bytes :=
  fun indexMAC _ => if indexMAC = [8] then some (List.replicate 32 4) else none

/-- The patch `patchReplace` with its mutations in the opposite order. -/
def patchReplaceReversed : SyncdPatch :=
  { patchReplace with Mutations := patchReplace.Mutations.reverse }

/-- A patch with one mutation: SET of `indexOne` to a value ending in `fpOne`. -/
def patchSetOnly : SyncdPatch :=
  { Version := 1,
    Mutations := [
      { Operation := SyncdMutation_SET, IndexBlob := indexOne, ValueBlob := [9, 9] ++ fpOne }],
    SnapshotMac := [] }

/-- A patch with one mutation: REMOVE of `indexOne`. -/
def patchRemoveOnly : SyncdPatch :=
  { Version := 2,
    Mutations := [
      { Operation := SyncdMutation_REMOVE, IndexBlob := indexOne, ValueBlob := [] }],
    SnapshotMac := [] }

/-- A patch with one mutation on `indexOne` whose operation code, 2, is neither SET nor
REMOVE. -/
def patchOtherCode : SyncdPatch :=
  { Version := 3,
    Mutations := [{ Operation := 2, IndexBlob := indexOne, ValueBlob := [] }],
    SnapshotMac := [] }

/-- The map with the one entry of `indexOne`, holding `fpOne`. -/
def storeOne : Store := [(indexOne, fpOne)]

/-- The state whose accumulator is, under the bytewise stand-in, the combination of
`storeOne`. -/
def stateOne : HashState :=
  { NewHashState with Hash := bytewiseSubtractThenAdd NewHashState.Hash [] [fpOne] }

/-! ## Lemmas on the loop of `updateHash` -/

theorem last32_of_le {value : Bytes} (h : 32 ≤ value.length) :
    last32 value = some (trailing32 value) := by
  simp [last32, trailing32, h]

theorem last32_eq_none {value : Bytes} (h : value.length < 32) : last32 value = none := by
  simp [last32, Nat.not_le.mpr h]

theorem SET_ne_REMOVE : SyncdMutation_SET ≠ SyncdMutation_REMOVE := by decide

/-- The loop runs to completion, with the lists of the specification, when every SET
it meets has a value blob of 32 bytes or more and every REMOVE it meets resolves. -/
theorem updateHashLoop_completed (lookup : Bytes → Nat → Option Bytes) :
    ∀ (mutations : List SyncdMutation) (i : Nat) (v : LoopVars),
      (∀ m ∈ mutations, m.Operation = SyncdMutation_SET → 32 ≤ m.ValueBlob.length) →
      (∀ (j : Nat) (m : SyncdMutation), mutations[j]? = some m →
        m.Operation = SyncdMutation_REMOVE → lookup m.IndexBlob (i + j) ≠ none) →
      updateHashLoop lookup mutations i v = LoopExit.completed
        { added := v.added ++ specAdded mutations,
          removed := v.removed ++
            (mutations.enumFrom i).filterMap (fun p => lookup p.2.IndexBlob p.1),
          calls := v.calls ++ (mutations.enumFrom i).map (fun p => (p.2.IndexBlob, p.1)) } := by
  intro mutations
  induction mutations with
  | nil => intro i v _ _; simp [updateHashLoop, specAdded]
  | cons m rest ih =>
    intro i v hset hrem
    have hset' : ∀ x ∈ rest, x.Operation = SyncdMutation_SET → 32 ≤ x.ValueBlob.length :=
      fun x hx => hset x (List.mem_cons_of_mem _ hx)
    have hrem' : ∀ (j : Nat) (x : SyncdMutation), rest[j]? = some x →
        x.Operation = SyncdMutation_REMOVE → lookup x.IndexBlob (i + 1 + j) ≠ none := by
      intro j x hj hx
      have := hrem (j + 1) x (by simpa using hj) hx
      rwa [show i + (j + 1) = i + 1 + j by omega] at this
    have hhead := hrem 0 m (by simp)
    by_cases hop : m.Operation = SyncdMutation_SET
    · have hlen := hset m (List.mem_cons_self _ _) hop
      cases hl : lookup m.IndexBlob i with
      | none =>
        have hne : m.Operation ≠ SyncdMutation_REMOVE := by rw [hop]; exact SET_ne_REMOVE
        simp [updateHashLoop, hop, last32_of_le hlen, hl, SET_ne_REMOVE, ih (i + 1) _ hset' hrem',
          specAdded, List.enumFrom]
      | some r =>
        simp [updateHashLoop, hop, last32_of_le hlen, hl, ih (i + 1) _ hset' hrem',
          specAdded, List.enumFrom]
    · cases hl : lookup m.IndexBlob i with
      | none =>
        have hne : m.Operation ≠ SyncdMutation_REMOVE := by
          intro hr; exact hhead hr (by simpa using hl)
        simp [updateHashLoop, hop, hl, hne, ih (i + 1) _ hset' hrem', specAdded, List.enumFrom]
      | some r =>
        simp [updateHashLoop, hop, hl, ih (i + 1) _ hset' hrem', specAdded, List.enumFrom]

theorem specAdded_cons (m : SyncdMutation) (rest : List SyncdMutation) :
    specAdded (m :: rest) = specAdded [m] ++ specAdded rest := by
  by_cases hop : m.Operation = SyncdMutation_SET <;> simp [specAdded, List.filter_cons, hop]

/-- One turn of the loop that neither panics nor returns. -/
theorem updateHashLoop_cons (lookup : Bytes → Nat → Option Bytes) (m : SyncdMutation)
    (rest : List SyncdMutation) (i : Nat) (v : LoopVars)
    (hset : m.Operation = SyncdMutation_SET → 32 ≤ m.ValueBlob.length)
    (hrem : m.Operation = SyncdMutation_REMOVE → lookup m.IndexBlob i ≠ none) :
    updateHashLoop lookup (m :: rest) i v =
      updateHashLoop lookup rest (i + 1)
        { added := v.added ++ specAdded [m],
          removed := v.removed ++ (lookup m.IndexBlob i).toList,
          calls := v.calls ++ [(m.IndexBlob, i)] } := by
  by_cases hop : m.Operation = SyncdMutation_SET
  · have hne : m.Operation ≠ SyncdMutation_REMOVE := by rw [hop]; exact SET_ne_REMOVE
    cases hl : lookup m.IndexBlob i <;>
      simp [updateHashLoop, hop, last32_of_le (hset hop), hl, SET_ne_REMOVE, specAdded]
  · cases hl : lookup m.IndexBlob i with
    | none =>
      have hne : m.Operation ≠ SyncdMutation_REMOVE := fun hr => hrem hr hl
      simp [updateHashLoop, hop, hl, hne, specAdded]
    | some r => simp [updateHashLoop, hop, hl, specAdded]

/-- The loop returns the error at the first REMOVE that does not resolve, when every
SET before it has a value blob of 32 bytes or more. -/
theorem updateHashLoop_returned (lookup : Bytes → Nat → Option Bytes) :
    ∀ (mutations : List SyncdMutation) (i : Nat) (v : LoopVars) (k : Nat) (m : SyncdMutation),
      mutations[k]? = some m → m.Operation = SyncdMutation_REMOVE →
      lookup m.IndexBlob (i + k) = none →
      (∀ (j : Nat) (x : SyncdMutation), j < k → mutations[j]? = some x →
        x.Operation = SyncdMutation_REMOVE → lookup x.IndexBlob (i + j) ≠ none) →
      (∀ (j : Nat) (x : SyncdMutation), j < k → mutations[j]? = some x →
        x.Operation = SyncdMutation_SET → 32 ≤ x.ValueBlob.length) →
      updateHashLoop lookup mutations i v =
        LoopExit.returned AppStateError.ErrMissingPreviousSetValueOperation
          { added := v.added ++ specAdded (mutations.take k),
            removed := v.removed ++
              ((mutations.take k).enumFrom i).filterMap (fun p => lookup p.2.IndexBlob p.1),
            calls := v.calls ++
              ((mutations.take (k + 1)).enumFrom i).map (fun p => (p.2.IndexBlob, p.1)) } := by
  intro mutations
  induction mutations with
  | nil => intro i v k m hk; simp at hk
  | cons m0 rest ih =>
    intro i v k m hk hop hnone hfirst hset
    cases k with
    | zero =>
      have hm : m0 = m := by simpa using hk
      subst hm
      have hnone0 : lookup m0.IndexBlob i = none := by simpa using hnone
      simp [updateHashLoop, hop, hnone0, SET_ne_REMOVE.symm, specAdded, List.enumFrom]
    | succ k =>
      have hk' : rest[k]? = some m := by simpa using hk
      have hnone' : lookup m.IndexBlob (i + 1 + k) = none := by
        rwa [show i + (k + 1) = i + 1 + k by omega] at hnone
      have hfirst' : ∀ (j : Nat) (x : SyncdMutation), j < k → rest[j]? = some x →
          x.Operation = SyncdMutation_REMOVE → lookup x.IndexBlob (i + 1 + j) ≠ none := by
        intro j x hj hx hxo
        have := hfirst (j + 1) x (by omega) (by simpa using hx) hxo
        rwa [show i + (j + 1) = i + 1 + j by omega] at this
      have hset' : ∀ (j : Nat) (x : SyncdMutation), j < k → rest[j]? = some x →
          x.Operation = SyncdMutation_SET → 32 ≤ x.ValueBlob.length :=
        fun j x hj hx hxo => hset (j + 1) x (by omega) (by simpa using hx) hxo
      rw [updateHashLoop_cons lookup m0 rest i v (hset 0 m0 (by omega) (by simp))
        (by simpa using hfirst 0 m0 (by omega) (by simp)),
        ih (i + 1) _ k m hk' hop hnone' hfirst' hset']
      rw [List.take_succ_cons, List.take_succ_cons, specAdded_cons m0 (List.take k rest)]
      cases hl : lookup m0.IndexBlob i <;> simp [List.enumFrom, hl]

/-- When some REMOVE does not resolve, and the SET mutations before the first such one
have value blobs of 32 bytes or more, the loop returns the error. -/
theorem updateHashLoop_returned_of_exists (lookup : Bytes → Nat → Option Bytes)
    (mutations : List SyncdMutation)
    (hex : ∃ k, UnresolvedRemoveAt lookup mutations k)
    (hset : ∀ k, UnresolvedRemoveAt lookup mutations k →
      (∀ j, j < k → ¬ UnresolvedRemoveAt lookup mutations j) →
      ∀ (j : Nat) (x : SyncdMutation), j < k → mutations[j]? = some x →
        x.Operation = SyncdMutation_SET → 32 ≤ x.ValueBlob.length) :
    ∃ vEnd, updateHashLoop lookup mutations 0 { added := [], removed := [], calls := [] } =
      LoopExit.returned AppStateError.ErrMissingPreviousSetValueOperation vEnd := by
  classical
  obtain ⟨m, hk, hop, hnone⟩ := Nat.find_spec hex
  have hmin : ∀ j, j < Nat.find hex → ¬ UnresolvedRemoveAt lookup mutations j :=
    fun j hj => Nat.find_min hex hj
  exact ⟨_, updateHashLoop_returned lookup mutations 0
    { added := [], removed := [], calls := [] } (Nat.find hex) m hk hop (by simpa using hnone)
    (by
      intro j x hj hx hxo hl
      exact hmin j hj ⟨x, hx, hxo, by simpa using hl⟩)
    (hset (Nat.find hex) (Nat.find_spec hex) hmin)⟩

/-! ## The accumulator updater: success and failure -/

/-- C1: for every state, every patch whose SET mutations all have a value blob of 32
bytes or more, and every lookup: when no REMOVE mutation at a position `i` has
`lookup(indexBlob_i, i) = none`, `updateHash` returns no error and the accumulator becomes
`SubtractThenAddInPlace(old, removed, added)`, with `added` the trailing 32 bytes of the
value blob of each SET mutation and `removed` the lookup results that exist, for SET and
REMOVE mutations alike, both in patch order. Nothing else of the state changes. -/
theorem updateHash_success
    (prim : Hash128 → List Bytes → List Bytes → Hash128) (hs : HashState)
    (patch : SyncdPatch) (lookup : Bytes → Nat → Option Bytes)
    (hset : ∀ m ∈ patch.Mutations, m.Operation = SyncdMutation_SET → 32 ≤ m.ValueBlob.length)
    (hrem : ∀ (i : Nat) (m : SyncdMutation), patch.Mutations[i]? = some m →
      m.Operation = SyncdMutation_REMOVE → lookup m.IndexBlob i ≠ none) :
    hs.updateHash prim patch lookup =
      some (none, { hs with
        Hash := (prim hs.Hash (specRemoved lookup patch.Mutations) (specAdded patch.Mutations)) }) := by
  have h := updateHashLoop_completed lookup patch.Mutations 0
    { added := [], removed := [], calls := [] } hset (by simpa using hrem)
  simp [HashState.updateHash, h, specRemoved]

/-- C1, on the patch `patchSetRemove` from the fresh state: both lists are `[fpOne]`. -/
theorem updateHash_success_witness :
    (∀ m ∈ patchSetRemove.Mutations, m.Operation = SyncdMutation_SET → 32 ≤ m.ValueBlob.length) ∧
    specRemoved lookupAfterSet patchSetRemove.Mutations = [fpOne] ∧
    specAdded patchSetRemove.Mutations = [fpOne] ∧
    NewHashState.updateHash bytewiseSubtractThenAdd patchSetRemove lookupAfterSet =
      some (none, { NewHashState with
        Hash := (bytewiseSubtractThenAdd NewHashState.Hash [fpOne] [fpOne]) }) :=
  ⟨by decide, by decide, by decide,
    updateHash_success bytewiseSubtractThenAdd NewHashState patchSetRemove lookupAfterSet
      (by decide)
      (by
        intro i m hi hop
        match i, hi with
        | 0, hi =>
          have hm : m.Operation = SyncdMutation_SET := by
            simp [patchSetRemove] at hi; rw [← hi]
          rw [hm] at hop; exact absurd hop SET_ne_REMOVE
        | 1, hi =>
          simp [patchSetRemove] at hi; rw [← hi]; decide
        | n + 2, hi => simp [patchSetRemove] at hi)⟩

/-- C2: for every state, patch and lookup such that some REMOVE mutation has no prior
value (`lookup(indexBlob_i, i) = none`), every SET mutation before the first such position
having a value blob of 32 bytes or more, `updateHash` returns
`ErrMissingPreviousSetValueOperation` and leaves the state as it was: accumulator, version
and log are those before the call, whatever the accumulator primitive is, which is not
applied. -/
theorem updateHash_missing_previous_set
    (prim : Hash128 → List Bytes → List Bytes → Hash128) (hs : HashState)
    (patch : SyncdPatch) (lookup : Bytes → Nat → Option Bytes)
    (hex : ∃ k, UnresolvedRemoveAt lookup patch.Mutations k)
    (hset : ∀ k, UnresolvedRemoveAt lookup patch.Mutations k →
      (∀ j, j < k → ¬ UnresolvedRemoveAt lookup patch.Mutations j) →
      ∀ (j : Nat) (x : SyncdMutation), j < k → patch.Mutations[j]? = some x →
        x.Operation = SyncdMutation_SET → 32 ≤ x.ValueBlob.length) :
    hs.updateHash prim patch lookup =
      some (some AppStateError.ErrMissingPreviousSetValueOperation, hs) := by
  obtain ⟨vEnd, h⟩ := updateHashLoop_returned_of_exists lookup patch.Mutations hex hset
  simp [HashState.updateHash, h]

/-- C2, on the patch `patchBadRemove`: position 1 is the first REMOVE without a prior
value; the SET with the empty value blob behind it is never reached. -/
theorem updateHash_missing_previous_set_witness :
    UnresolvedRemoveAt lookupNothing patchBadRemove.Mutations 1 ∧
    NewHashState.updateHash bytewiseSubtractThenAdd patchBadRemove lookupNothing =
      some (some AppStateError.ErrMissingPreviousSetValueOperation, NewHashState) :=
  have hone : UnresolvedRemoveAt lookupNothing patchBadRemove.Mutations 1 :=
    ⟨_, rfl, rfl, rfl⟩
  ⟨hone,
    updateHash_missing_previous_set bytewiseSubtractThenAdd NewHashState patchBadRemove
      lookupNothing ⟨1, hone⟩
      (by
        intro k hk _ j x hj hx hxo
        obtain ⟨m, hm, hmo, _⟩ := hk
        match k, hm, j, hj, hx with
        | 0, hm, _, hj, _ => omega
        | 1, _, 0, _, hx =>
          simp [patchBadRemove] at hx; rw [← hx]; decide
        | 2, hm, _, _, _ =>
          simp [patchBadRemove] at hm; rw [← hm] at hmo; exact absurd hmo (by decide)
        | n + 3, hm, _, _, _ => simp [patchBadRemove] at hm)⟩

/-! ## Byte encoding -/

theorem uint64ToBytes_eq (v : Nat) :
    uint64ToBytes v = [v / 2 ^ 56 % 256, v / 2 ^ 48 % 256, v / 2 ^ 40 % 256, v / 2 ^ 32 % 256,
      v / 2 ^ 24 % 256, v / 2 ^ 16 % 256, v / 2 ^ 8 % 256, v % 256] := by
  simp [uint64ToBytes, PutUint64, List.replicate]

/-- The code's encoder computes the eight big-endian digits of the specification. -/
theorem uint64ToBytes_eq_bigEndian64 (v : Nat) : uint64ToBytes v = bigEndian64 v := by
  rw [uint64ToBytes_eq]
  simp [bigEndian64, List.range, List.range.loop]

theorem uint64ToBytes_mod (v : Nat) : uint64ToBytes (v % 2 ^ 64) = uint64ToBytes v := by
  rw [uint64ToBytes_eq, uint64ToBytes_eq]
  norm_num
  omega

theorem uint64ToBytes_length (v : Nat) : (uint64ToBytes v).length = 8 := by
  rw [uint64ToBytes_eq]; rfl

theorem bigEndianValue_uint64ToBytes (v : Nat) (hv : v < 2 ^ 64) :
    bigEndianValue (uint64ToBytes v) = v := by
  rw [uint64ToBytes_eq]
  simp [bigEndianValue, List.range, List.range.loop]
  omega

theorem uint64ToBytes_injective (v w : Nat) (hv : v < 2 ^ 64) (hw : w < 2 ^ 64)
    (h : uint64ToBytes w = uint64ToBytes v) : w = v := by
  rw [← bigEndianValue_uint64ToBytes v hv, ← bigEndianValue_uint64ToBytes w hw, h]

/-! ## The keyed hash over a concatenation -/

theorem foldl_Write (data : List Bytes) :
    ∀ h : HMAC, data.foldl HMAC.Write h =
      { alg := h.alg, key := h.key, written := h.written ++ data.flatten } := by
  induction data with
  | nil => intro h; simp
  | cons item rest ih => intro h; simp [ih, HMAC.Write]

/-- The bytes that `concatAndHMAC` has written to the hash are the items, one after the
other. -/
theorem concatAndHMACState_written (alg : KeyedHash) (key : Bytes) (data : List Bytes) :
    (concatAndHMACState alg key data).written = data.flatten := by
  simp [concatAndHMACState, foldl_Write, hmacNew]

theorem concatAndHMAC_eq (alg : KeyedHash) (key : Bytes) (data : List Bytes) :
    concatAndHMAC alg key data = alg key data.flatten := by
  simp [concatAndHMAC, concatAndHMACState, foldl_Write, hmacNew, HMAC.Sum]

theorem operationByte_eq (operation : Int) :
    operationByte operation = operationCodePlusOne operation := by
  unfold operationByte operationCodePlusOne
  omega

/-- The loop of `generatePatchMAC` writes the fingerprints into the cells after
position `i`, and nothing else. -/
theorem patchMACLoop_eq :
    ∀ (mutations : List SyncdMutation) (i : Nat) (pre post : List Bytes),
      pre.length = i + 1 → (∀ m ∈ mutations, 32 ≤ m.ValueBlob.length) →
      patchMACLoop mutations i (pre ++ List.replicate mutations.length [] ++ post) =
        some (pre ++ mutations.map (fun m => trailing32 m.ValueBlob) ++ post) := by
  intro mutations
  induction mutations with
  | nil => intro i pre post _ _; simp [patchMACLoop]
  | cons m rest ih =>
    intro i pre post hpre hlen
    have hm := hlen m (List.mem_cons_self _ _)
    have hrest : ∀ x ∈ rest, 32 ≤ x.ValueBlob.length :=
      fun x hx => hlen x (List.mem_cons_of_mem _ hx)
    have hset : (pre ++ List.replicate (m :: rest).length [] ++ post).set (i + 1)
        (trailing32 m.ValueBlob) =
        (pre ++ [trailing32 m.ValueBlob]) ++ List.replicate rest.length [] ++ post := by
      simp [List.set_append, hpre, List.replicate_succ]
    simp only [patchMACLoop, last32_of_le hm, hset]
    rw [ih (i + 1) (pre ++ [trailing32 m.ValueBlob]) post (by simp [hpre]) hrest]
    simp

/-! ## The three MAC constructions -/

/-- C3: for every state, collection name and key, `generateSnapshotMAC` is the keyed hash,
under the key, of the accumulator (128 bytes), then the big-endian 64-bit version, then
the bytes of the name, with nothing between them; these are the bytes written to the hash,
and there are `136 + len(name)` of them. -/
theorem generateSnapshotMAC_eq (sha256New : KeyedHash) (hs : HashState) (name key : Bytes) :
    hs.generateSnapshotMAC sha256New name key =
      sha256New key (hs.Hash.val ++ bigEndian64 hs.Version ++ name) ∧
    (concatAndHMACState sha256New key (hs.snapshotMACData name)).written =
      hs.Hash.val ++ bigEndian64 hs.Version ++ name ∧
    hs.Hash.val.length = 128 ∧
    (hs.Hash.val ++ bigEndian64 hs.Version ++ name).length = 136 + name.length := by
  have h8 : (bigEndian64 hs.Version).length = 8 := by
    rw [← uint64ToBytes_eq_bigEndian64]; exact uint64ToBytes_length _
  refine ⟨?_, ?_, hs.Hash.property, ?_⟩
  · simp [HashState.generateSnapshotMAC, HashState.snapshotMACData, concatAndHMAC_eq,
      uint64ToBytes_eq_bigEndian64]
  · simp [HashState.snapshotMACData, concatAndHMACState_written, uint64ToBytes_eq_bigEndian64]
  · simp only [List.length_append, h8, hs.Hash.property]

/-- C4: for every patch whose mutations all have a value blob of 32 bytes or more, every
collection name and key, `generatePatchMAC` is the keyed hash, under the key, of the
snapshot MAC of the patch, then the trailing 32 bytes of the value blob of every mutation
in patch order (SET or REMOVE alike), then the big-endian 64-bit declared version of the
patch, then the bytes of the name. The function has no `HashState` among its inputs. -/
theorem generatePatchMAC_eq (sha256New : KeyedHash) (patch : SyncdPatch) (name key : Bytes)
    (hlen : ∀ m ∈ patch.Mutations, 32 ≤ m.ValueBlob.length) :
    generatePatchMAC sha256New patch name key =
      some (sha256New key (patch.SnapshotMac ++
        (patch.Mutations.map (fun m => trailing32 m.ValueBlob)).flatten ++
        bigEndian64 patch.Version ++ name)) := by
  have hloop := patchMACLoop_eq patch.Mutations 0 [patch.SnapshotMac] [[], []] rfl hlen
  have hinit : (List.replicate (patch.Mutations.length + 3) ([] : Bytes)).set 0 patch.SnapshotMac
      = [patch.SnapshotMac] ++ List.replicate patch.Mutations.length [] ++ [[], []] := by
    rw [show patch.Mutations.length + 3 = (patch.Mutations.length + 1) + 2 from rfl,
      List.replicate_add, List.replicate_succ]
    rfl
  simp only [generatePatchMAC, patchMACData, hinit, hloop]
  simp [List.set_append, concatAndHMAC_eq, uint64ToBytes_eq_bigEndian64]

/-- C4, on the patch `patchTwoValues`: the REMOVE mutation contributes the trailing 32
bytes of its value blob as the SET mutation does. -/
theorem generatePatchMAC_eq_witness :
    (∀ m ∈ patchTwoValues.Mutations, 32 ≤ m.ValueBlob.length) ∧
    generatePatchMAC (checksumHash 32) patchTwoValues [110] [1, 2] =
      some (checksumHash 32 [1, 2] ([6, 6, 6] ++ (fpOne ++ List.replicate 32 4) ++
        [0, 0, 0, 0, 0, 0, 1, 2] ++ [110])) :=
  ⟨by decide, generatePatchMAC_eq (checksumHash 32) patchTwoValues [110] [1, 2] (by decide)⟩

/-- C5: for every operation code, data, key id and key, `generateContentMAC` is the first
32 bytes of the keyed hash (a 64-byte tag), under the key, of the one byte holding the
operation code plus one, then the key id, then the data, then the big-endian 64-bit value
`len(keyID) + 1`: the key id comes before the data. -/
theorem generateContentMAC_eq (sha512New : KeyedHash) (operation : Int)
    (data keyID key : Bytes) (htag : ∀ k msg, (sha512New k msg).length = 64) :
    generateContentMAC sha512New operation data keyID key =
      some ((sha512New key ([operationCodePlusOne operation] ++ keyID ++ data ++
        bigEndian64 (keyID.length + 1))).take 32) := by
  simp only [generateContentMAC, contentMACData, uint64ToBytes_mod]
  simp [concatAndHMAC_eq, first32, htag, uint64ToBytes_eq_bigEndian64, operationByte_eq]

/-- C5, for a REMOVE with key id `[1, 2]` and data `[3, 4, 5]`. -/
theorem generateContentMAC_eq_witness :
    (∀ k msg, (checksumHash 64 k msg).length = 64) ∧
    generateContentMAC (checksumHash 64) SyncdMutation_REMOVE [3, 4, 5] [1, 2] [9] =
      some ((checksumHash 64 [9] [2, 1, 2, 3, 4, 5, 0, 0, 0, 0, 0, 0, 0, 3]).take 32) :=
  ⟨fun _ _ => by simp [checksumHash],
    generateContentMAC_eq (checksumHash 64) SyncdMutation_REMOVE [3, 4, 5] [1, 2] [9]
      (fun _ _ => by simp [checksumHash])⟩

/-! ## The 64-bit encoding -/

/-- C6: for every 64-bit value `v`, `uint64ToBytes(v)` has exactly 8 bytes, each below
256, whose big-endian reading is `v`, so that no other 64-bit value has the same encoding;
`uint64ToBytes(0)` is eight zero bytes, `uint64ToBytes(256)` is `[0,0,0,0,0,0,1,0]` and
`uint64ToBytes(2^64-1)` is eight bytes 255. -/
theorem uint64ToBytes_bigEndian (v : Nat) (hv : v < 2 ^ 64) :
    (uint64ToBytes v).length = 8 ∧
    (∀ b ∈ uint64ToBytes v, b < 256) ∧
    bigEndianValue (uint64ToBytes v) = v ∧
    (∀ w, w < 2 ^ 64 → uint64ToBytes w = uint64ToBytes v → w = v) ∧
    uint64ToBytes 0 = [0, 0, 0, 0, 0, 0, 0, 0] ∧
    uint64ToBytes 256 = [0, 0, 0, 0, 0, 0, 1, 0] ∧
    uint64ToBytes (2 ^ 64 - 1) = [255, 255, 255, 255, 255, 255, 255, 255] := by
  refine ⟨uint64ToBytes_length v, ?_, bigEndianValue_uint64ToBytes v hv,
    fun w hw h => uint64ToBytes_injective v w hv hw h, by decide, by decide, by decide⟩
  intro b hb
  rw [uint64ToBytes_eq] at hb
  simp only [List.mem_cons, List.mem_singleton, List.not_mem_nil, or_false] at hb
  rcases hb with h | h | h | h | h | h | h | h <;> rw [h] <;> exact Nat.mod_lt _ (by decide)

/-- C6, at `v = 258`, whose encoding is `[0,0,0,0,0,0,1,2]`. -/
theorem uint64ToBytes_bigEndian_witness :
    258 < 2 ^ 64 ∧ uint64ToBytes 258 = [0, 0, 0, 0, 0, 0, 1, 2] ∧
    bigEndianValue (uint64ToBytes 258) = 258 :=
  ⟨by decide, by decide, (uint64ToBytes_bigEndian 258 (by decide)).2.2.1⟩

/-! ## The accumulator invariant -/

theorem updateHashLoop_cons_panicked (lookup : Bytes → Nat → Option Bytes) (m : SyncdMutation)
    (rest : List SyncdMutation) (i : Nat) (v : LoopVars)
    (hop : m.Operation = SyncdMutation_SET) (hlen : m.ValueBlob.length < 32) :
    updateHashLoop lookup (m :: rest) i v = LoopExit.panicked v := by
  simp [updateHashLoop, hop, last32_eq_none hlen]

theorem updateHashLoop_cons_returned (lookup : Bytes → Nat → Option Bytes) (m : SyncdMutation)
    (rest : List SyncdMutation) (i : Nat) (v : LoopVars)
    (hop : m.Operation = SyncdMutation_REMOVE) (hnone : lookup m.IndexBlob i = none) :
    updateHashLoop lookup (m :: rest) i v =
      LoopExit.returned AppStateError.ErrMissingPreviousSetValueOperation
        { added := v.added, removed := v.removed, calls := v.calls ++ [(m.IndexBlob, i)] } := by
  simp [updateHashLoop, hop, hnone, SET_ne_REMOVE.symm]

theorem Store.clear_of_not_mem (s : Store) (index : Bytes)
    (h : index ∉ s.map Prod.fst) : Store.clear s index = s := by
  unfold Store.clear
  rw [List.filter_eq_self]
  intro e he
  have : e.1 ≠ index := fun heq => h (heq ▸ List.mem_map_of_mem Prod.fst he)
  simpa using this

/-- The combination splits into the entry of one index and the rest of the map. -/
theorem combination_clear {G : Type} [AddCommGroup G] (enc : Bytes → G) (s : Store)
    (index : Bytes) (hmap : Store.IsMap s) :
    combination enc s =
      combination enc (Store.clear s index) + ((Store.entry s index).map enc).getD 0 := by
  induction s with
  | nil => simp [combination, Store.clear, Store.entry]
  | cons e rest ih =>
    obtain ⟨k, fp⟩ := e
    have hnd : k ∉ rest.map Prod.fst ∧ Store.IsMap rest := by
      simpa [Store.IsMap] using hmap
    by_cases hk : k = index
    · subst hk
      have hc : Store.clear ((k, fp) :: rest) k = rest := by
        have := Store.clear_of_not_mem rest k hnd.1
        simpa [Store.clear] using this
      rw [hc]
      simp [combination, Store.entry, add_comm]
    · have hc : Store.clear ((k, fp) :: rest) index = (k, fp) :: Store.clear rest index := by
        simp [Store.clear, hk]
      rw [hc]
      have := ih hnd.2
      simp only [combination, List.map_cons, List.sum_cons, Store.entry, hk, if_false] at this ⊢
      rw [this, add_assoc]

theorem Store.isMap_clear (s : Store) (index : Bytes) (hmap : Store.IsMap s) :
    Store.IsMap (Store.clear s index) := by
  unfold Store.IsMap Store.clear at *
  exact hmap.sublist ((List.filter_sublist s).map Prod.fst)

theorem Store.isMap_put (s : Store) (index fp : Bytes) (hmap : Store.IsMap s) :
    Store.IsMap (Store.put s index fp) := by
  have h1 := Store.isMap_clear s index hmap
  unfold Store.IsMap Store.put at *
  rw [List.map_cons, List.nodup_cons]
  refine ⟨?_, h1⟩
  simp [Store.clear]

theorem Store.isMap_apply (s : Store) (m : SyncdMutation) (hmap : Store.IsMap s) :
    Store.IsMap (Store.apply s m) := by
  unfold Store.apply
  split
  · exact Store.isMap_put s _ _ hmap
  · split
    · exact Store.isMap_clear s _ hmap
    · exact hmap

theorem specAdded_singleton_SET (m : SyncdMutation) (hop : m.Operation = SyncdMutation_SET) :
    specAdded [m] = [trailing32 m.ValueBlob] := by
  simp [specAdded, hop]

theorem specAdded_singleton_other (m : SyncdMutation) (hop : m.Operation ≠ SyncdMutation_SET) :
    specAdded [m] = [] := by
  simp [specAdded, hop]

theorem combination_put {G : Type} [AddCommGroup G] (enc : Bytes → G) (s : Store)
    (index fp : Bytes) (hmap : Store.IsMap s) :
    combination enc (Store.put s index fp) =
      combination enc s + enc fp - ((Store.entry s index).map enc).getD 0 := by
  have h := combination_clear enc s index hmap
  have hp : combination enc (Store.put s index fp) =
      enc fp + combination enc (Store.clear s index) := by
    simp [combination, Store.put]
  rw [hp, h]
  abel

/-- The loop keeps the books of the map: what it has added minus what it has removed
moves by the change of the combination of the map. -/
theorem updateHashLoop_combination {G : Type} [AddCommGroup G] (enc : Bytes → G)
    (lookup : Bytes → Nat → Option Bytes) :
    ∀ (rest : List SyncdMutation) (i : Nat) (v vEnd : LoopVars) (s : Store),
      Store.IsMap s →
      (∀ (j : Nat) (index : Bytes),
        lookup index (i + j) = Store.entry (Store.applyAll s (rest.take j)) index) →
      (∀ m ∈ rest, m.Operation = SyncdMutation_SET ∨ m.Operation = SyncdMutation_REMOVE) →
      updateHashLoop lookup rest i v = LoopExit.completed vEnd →
      (vEnd.added.map enc).sum - (vEnd.removed.map enc).sum =
        (v.added.map enc).sum - (v.removed.map enc).sum +
          (combination enc (Store.applyAll s rest) - combination enc s) := by
  intro rest
  induction rest with
  | nil =>
    intro i v vEnd s _ _ _ hcomp
    simp only [updateHashLoop, LoopExit.completed.injEq] at hcomp
    subst hcomp
    simp [Store.applyAll]
  | cons m rest ih =>
    intro i v vEnd s hmap hlook hops hcomp
    have hl0 : lookup m.IndexBlob i = Store.entry s m.IndexBlob := by
      simpa [Store.applyAll] using hlook 0 m.IndexBlob
    have hlook' : ∀ (j : Nat) (index : Bytes), lookup index (i + 1 + j) =
        Store.entry (Store.applyAll (Store.apply s m) (rest.take j)) index := by
      intro j index
      have := hlook (j + 1) index
      rw [show i + (j + 1) = i + 1 + j by omega] at this
      simpa [Store.applyAll] using this
    have hops' : ∀ x ∈ rest,
        x.Operation = SyncdMutation_SET ∨ x.Operation = SyncdMutation_REMOVE :=
      fun x hx => hops x (List.mem_cons_of_mem _ hx)
    have hall : Store.applyAll s (m :: rest) = Store.applyAll (Store.apply s m) rest := by
      simp [Store.applyAll]
    rcases hops m (List.mem_cons_self _ _) with hop | hop
    · have hne : m.Operation ≠ SyncdMutation_REMOVE := by rw [hop]; exact SET_ne_REMOVE
      by_cases hlen : 32 ≤ m.ValueBlob.length
      · rw [updateHashLoop_cons lookup m rest i v (fun _ => hlen)
          (fun h => absurd h hne)] at hcomp
        have hstep := ih (i + 1) _ vEnd (Store.apply s m) (Store.isMap_apply s m hmap)
          hlook' hops' hcomp
        have hput : Store.apply s m = Store.put s m.IndexBlob (trailing32 m.ValueBlob) := by
          simp [Store.apply, hop]
        rw [hstep, hall, hput, combination_put enc s _ _ hmap,
          specAdded_singleton_SET m hop, hl0]
        cases hentry : Store.entry s m.IndexBlob <;> simp <;> abel
      · rw [updateHashLoop_cons_panicked lookup m rest i v hop (Nat.lt_of_not_le hlen)] at hcomp
        exact absurd hcomp (by simp)
    · have hns : m.Operation ≠ SyncdMutation_SET := by
        rw [hop]; exact SET_ne_REMOVE.symm
      cases hentry : lookup m.IndexBlob i with
      | none =>
        rw [updateHashLoop_cons_returned lookup m rest i v hop hentry] at hcomp
        exact absurd hcomp (by simp)
      | some r =>
        rw [updateHashLoop_cons lookup m rest i v (fun h => absurd h hns)
          (fun _ => by simp [hentry])] at hcomp
        have hstep := ih (i + 1) _ vEnd (Store.apply s m) (Store.isMap_apply s m hmap)
          hlook' hops' hcomp
        have hclear : Store.apply s m = Store.clear s m.IndexBlob := by
          simp [Store.apply, hop, SET_ne_REMOVE.symm]
        have hsplit := combination_clear enc s m.IndexBlob hmap
        rw [← hl0, hentry] at hsplit
        rw [hstep, hall, hclear, specAdded_singleton_other m hns, hentry, hsplit]
        simp
        abel

theorem updateHash_completed_of_success
    (prim : Hash128 → List Bytes → List Bytes → Hash128) (hs hsAfter : HashState)
    (patch : SyncdPatch) (lookup : Bytes → Nat → Option Bytes)
    (hsucc : hs.updateHash prim patch lookup = some (none, hsAfter)) :
    ∃ vEnd, updateHashLoop lookup patch.Mutations 0 { added := [], removed := [], calls := [] } =
        LoopExit.completed vEnd ∧
      hsAfter = { hs with Hash := (prim hs.Hash vEnd.removed vEnd.added) } := by
  unfold HashState.updateHash at hsucc
  cases hloop : updateHashLoop lookup patch.Mutations 0
      { added := [], removed := [], calls := [] } with
  | completed vEnd =>
    rw [hloop] at hsucc
    simp only [Option.some.injEq, Prod.mk.injEq, true_and] at hsucc
    exact ⟨vEnd, rfl, hsucc.symm⟩
  | returned err vEnd => rw [hloop] at hsucc; simp at hsucc
  | panicked vEnd => rw [hloop] at hsucc; simp at hsucc

theorem sum_map_apply (l : List Bytes) (k : Fin 128) :
    (l.map bytewiseEnc).sum k = (l.map (fun f => bytewiseEnc f k)).sum := by
  induction l with
  | nil => rfl
  | cons f rest ih => simp [ih]

/-- The stand-in primitive is a commutative-group combination of fingerprints. -/
theorem bytewise_combination (acc : Hash128) (removed added : List Bytes) :
    bytewiseVal (bytewiseSubtractThenAdd acc removed added) =
      bytewiseVal acc - (removed.map bytewiseEnc).sum + (added.map bytewiseEnc).sum := by
  funext k
  have hk : k.val < (List.range 128).length := by simp
  simp only [Pi.add_apply, Pi.sub_apply, sum_map_apply]
  simp [bytewiseVal, bytewiseSubtractThenAdd, bytewiseEnc, List.getD_eq_getElem?_getD]

/-- The all-zero accumulator is the combination of the empty map. -/
theorem bytewiseVal_NewHashState :
    bytewiseVal NewHashState.Hash = combination bytewiseEnc [] := by
  funext k
  have h : List.getD (List.replicate 128 0) k.val 0 = 0 := by
    rw [List.getD_eq_getElem?_getD, List.getElem?_replicate]
    split <;> rfl
  show ((List.getD (List.replicate 128 0) k.val 0 : Nat) : ZMod 256) = 0
  rw [h]; rfl

/-- C7, as amended: take the collection as a map from index to fingerprint (SET stores the
fingerprint, REMOVE clears the entry), the lookup as the faithful one (for mutation `i`,
the entry of the index after mutations `0 .. i-1` of the patch), and the accumulator
primitive as a commutative-group combination of fingerprints. For every state whose
accumulator is the combination of exactly the fingerprints present in the map, and every
patch of SET and REMOVE mutations on which `updateHash` succeeds, the accumulator after the
call is the combination of exactly the fingerprints present in the map after the patch. -/
theorem updateHash_accumulator_invariant {G : Type} [AddCommGroup G]
    (enc : Bytes → G) (val : Hash128 → G)
    (prim : Hash128 → List Bytes → List Bytes → Hash128)
    (hprim : ∀ acc removed added,
      val (prim acc removed added) = val acc - (removed.map enc).sum + (added.map enc).sum)
    (hs hsAfter : HashState) (patch : SyncdPatch) (store : Store)
    (hmap : Store.IsMap store)
    (hops : ∀ m ∈ patch.Mutations,
      m.Operation = SyncdMutation_SET ∨ m.Operation = SyncdMutation_REMOVE)
    (hinv : val hs.Hash = combination enc store)
    (hsucc : hs.updateHash prim patch (faithfulLookup store patch.Mutations) =
      some (none, hsAfter)) :
    val hsAfter.Hash = combination enc (Store.applyAll store patch.Mutations) := by
  obtain ⟨vEnd, hloop, hafter⟩ :=
    updateHash_completed_of_success prim hs hsAfter patch _ hsucc
  have hbooks := updateHashLoop_combination enc (faithfulLookup store patch.Mutations)
    patch.Mutations 0 { added := [], removed := [], calls := [] } vEnd store hmap
    (by intro j index; simp [faithfulLookup]) hops hloop
  simp only [List.map_nil, List.sum_nil, sub_zero, zero_add] at hbooks
  rw [hafter]
  simp only [hprim, hinv]
  rw [sub_add_eq_add_sub, add_sub_assoc, hbooks]
  abel

/-- C7 as amended, on the patch `patchReplace` from the fresh state and the empty map, with the
bytewise stand-in: the map ends with the one entry of `indexOne`. -/
theorem updateHash_accumulator_invariant_witness :
    Store.IsMap [] ∧
    Store.applyAll [] patchReplace.Mutations = [(indexOne, List.replicate 32 3)] ∧
    bytewiseVal (bytewiseSubtractThenAdd NewHashState.Hash [fpOne, List.replicate 32 4]
        [fpOne, List.replicate 32 4, List.replicate 32 3]) =
      combination bytewiseEnc (Store.applyAll [] patchReplace.Mutations) :=
  ⟨by decide, by decide,
    updateHash_accumulator_invariant bytewiseEnc bytewiseVal bytewiseSubtractThenAdd
      bytewise_combination NewHashState
      { NewHashState with
        Hash := (bytewiseSubtractThenAdd NewHashState.Hash [fpOne, List.replicate 32 4]
          [fpOne, List.replicate 32 4, List.replicate 32 3]) }
      patchReplace [] (by decide) (by decide)
      bytewiseVal_NewHashState rfl⟩

/-! ## Order independence -/

theorem filterMap_enumFrom_position_free (lookup : Bytes → Nat → Option Bytes)
    (hfree : ∀ index i j, lookup index i = lookup index j) :
    ∀ (mutations : List SyncdMutation) (i : Nat),
      (mutations.enumFrom i).filterMap (fun p => lookup p.2.IndexBlob p.1) =
        mutations.filterMap (fun m => lookup m.IndexBlob 0) := by
  intro mutations
  induction mutations with
  | nil => intro i; rfl
  | cons m rest ih =>
    intro i
    simp only [List.enumFrom, List.filterMap_cons, ih (i + 1), hfree m.IndexBlob i 0]

/-- With a position-free lookup, a patch whose SET blobs have 32 bytes or more fails when
one of its REMOVE mutations does not resolve. -/
theorem updateHash_position_free_error
    (prim : Hash128 → List Bytes → List Bytes → Hash128) (hs : HashState)
    (patch : SyncdPatch) (lookup : Bytes → Nat → Option Bytes)
    (hfree : ∀ index i j, lookup index i = lookup index j)
    (hset : ∀ m ∈ patch.Mutations, m.Operation = SyncdMutation_SET → 32 ≤ m.ValueBlob.length)
    (hbad : ∃ m ∈ patch.Mutations, m.Operation = SyncdMutation_REMOVE ∧
      lookup m.IndexBlob 0 = none) :
    hs.updateHash prim patch lookup =
      some (some AppStateError.ErrMissingPreviousSetValueOperation, hs) := by
  obtain ⟨m, hm, hop, hnone⟩ := hbad
  obtain ⟨k, hk⟩ := List.getElem?_of_mem hm
  have hex : ∃ k, UnresolvedRemoveAt lookup patch.Mutations k :=
    ⟨k, m, hk, hop, by rw [hfree m.IndexBlob k 0]; exact hnone⟩
  obtain ⟨vEnd, h⟩ := updateHashLoop_returned_of_exists lookup patch.Mutations hex
    (fun _ _ _ j x _ hx hxo => hset x (List.getElem?_mem hx) hxo)
  simp [HashState.updateHash, h]

/-- With a position-free lookup, a patch whose SET blobs have 32 bytes or more and whose
REMOVE mutations all resolve succeeds, with the lists of the specification. -/
theorem updateHash_position_free_ok
    (prim : Hash128 → List Bytes → List Bytes → Hash128) (hs : HashState)
    (patch : SyncdPatch) (lookup : Bytes → Nat → Option Bytes)
    (hfree : ∀ index i j, lookup index i = lookup index j)
    (hset : ∀ m ∈ patch.Mutations, m.Operation = SyncdMutation_SET → 32 ≤ m.ValueBlob.length)
    (hgood : ¬ ∃ m ∈ patch.Mutations, m.Operation = SyncdMutation_REMOVE ∧
      lookup m.IndexBlob 0 = none) :
    hs.updateHash prim patch lookup =
      some (none, { hs with
        Hash := (prim hs.Hash (patch.Mutations.filterMap (fun m => lookup m.IndexBlob 0))
          (specAdded patch.Mutations)) }) := by
  have h := updateHashLoop_completed lookup patch.Mutations 0
    { added := [], removed := [], calls := [] } hset
    (by
      intro j m hj hop hl
      exact hgood ⟨m, List.getElem?_mem hj, hop, by rw [← hfree m.IndexBlob (0 + j) 0]; exact hl⟩)
  simp [HashState.updateHash, h, filterMap_enumFrom_position_free lookup hfree]

/-- The stand-in primitive does not depend on the order within its two lists. -/
theorem bytewise_perm (acc : Hash128) (removed removed2 added added2 : List Bytes)
    (hr : removed.Perm removed2) (ha : added.Perm added2) :
    bytewiseSubtractThenAdd acc removed added = bytewiseSubtractThenAdd acc removed2 added2 := by
  unfold bytewiseSubtractThenAdd
  apply Subtype.ext
  show List.map _ _ = List.map _ _
  apply List.map_congr_left
  intro k _
  rw [(hr.map _).sum_eq, (ha.map _).sum_eq]

/-- C8: order independence. For every state, every lookup whose result depends on the
index blob only, every mutation list whose SET mutations have value blobs of 32 bytes or
more, and every permutation of it: neither call panics, one fails if and only if the other
fails, and when both succeed the final accumulators are equal, in fact the two calls have
the same result, provided the accumulator primitive is invariant under permutation of its
removed list and of its added list. -/
theorem updateHash_order_independent
    (prim : Hash128 → List Bytes → List Bytes → Hash128)
    (hprim : ∀ acc removed removed2 added added2, List.Perm removed removed2 →
      List.Perm added added2 → prim acc removed added = prim acc removed2 added2)
    (hs : HashState) (patch patch2 : SyncdPatch) (lookup : Bytes → Nat → Option Bytes)
    (hfree : ∀ index i j, lookup index i = lookup index j)
    (hperm : List.Perm patch.Mutations patch2.Mutations)
    (hset : ∀ m ∈ patch.Mutations, m.Operation = SyncdMutation_SET → 32 ≤ m.ValueBlob.length) :
    hs.updateHash prim patch lookup ≠ none ∧
    ((∃ err st, hs.updateHash prim patch lookup = some (some err, st)) ↔
      (∃ err st, hs.updateHash prim patch2 lookup = some (some err, st))) ∧
    (∀ st st2, hs.updateHash prim patch lookup = some (none, st) →
      hs.updateHash prim patch2 lookup = some (none, st2) → st.Hash = st2.Hash) ∧
    hs.updateHash prim patch2 lookup = hs.updateHash prim patch lookup := by
  have hset2 : ∀ m ∈ patch2.Mutations, m.Operation = SyncdMutation_SET →
      32 ≤ m.ValueBlob.length := fun m hm => hset m (hperm.mem_iff.mpr hm)
  have heq : hs.updateHash prim patch2 lookup = hs.updateHash prim patch lookup := by
    by_cases hbad : ∃ m ∈ patch.Mutations, m.Operation = SyncdMutation_REMOVE ∧
        lookup m.IndexBlob 0 = none
    · have hbad2 : ∃ m ∈ patch2.Mutations, m.Operation = SyncdMutation_REMOVE ∧
          lookup m.IndexBlob 0 = none := by
        obtain ⟨m, hm, h⟩ := hbad
        exact ⟨m, hperm.mem_iff.mp hm, h⟩
      rw [updateHash_position_free_error prim hs patch lookup hfree hset hbad,
        updateHash_position_free_error prim hs patch2 lookup hfree hset2 hbad2]
    · have hgood2 : ¬ ∃ m ∈ patch2.Mutations, m.Operation = SyncdMutation_REMOVE ∧
          lookup m.IndexBlob 0 = none := by
        rintro ⟨m, hm, h⟩
        exact hbad ⟨m, hperm.mem_iff.mpr hm, h⟩
      rw [updateHash_position_free_ok prim hs patch lookup hfree hset hbad,
        updateHash_position_free_ok prim hs patch2 lookup hfree hset2 hgood2]
      have hadded : List.Perm (specAdded patch2.Mutations) (specAdded patch.Mutations) :=
        ((hperm.symm.filter _).map _)
      rw [hprim hs.Hash _ _ _ _ (hperm.symm.filterMap _) hadded]
  refine ⟨?_, ?_, ?_, heq⟩
  · by_cases hbad : ∃ m ∈ patch.Mutations, m.Operation = SyncdMutation_REMOVE ∧
        lookup m.IndexBlob 0 = none
    · rw [updateHash_position_free_error prim hs patch lookup hfree hset hbad]; simp
    · rw [updateHash_position_free_ok prim hs patch lookup hfree hset hbad]; simp
  · rw [heq]
  · intro st st2 h1 h2
    rw [heq, h1] at h2
    simp only [Option.some.injEq, Prod.mk.injEq, true_and] at h2
    rw [h2]

/-- C8, on `patchReplace` and its reversal, the lookup knowing the index `[8]` at every
position: both calls succeed with the same accumulator. -/
theorem updateHash_order_independent_witness :
    List.Perm patchReplace.Mutations patchReplaceReversed.Mutations ∧
    (∀ index i j, lookupEight index i = lookupEight index j) ∧
    NewHashState.updateHash bytewiseSubtractThenAdd patchReplaceReversed lookupEight =
      NewHashState.updateHash bytewiseSubtractThenAdd patchReplace lookupEight :=
  ⟨(List.reverse_perm _).symm, fun _ _ _ => rfl,
    (updateHash_order_independent bytewiseSubtractThenAdd bytewise_perm NewHashState
      patchReplace patchReplaceReversed lookupEight (fun _ _ _ => rfl)
      (List.reverse_perm _).symm (by decide)).2.2.2⟩

/-! ## End-to-end round trip -/

theorem bytewise_val (acc : Hash128) (removed added : List Bytes) :
    (bytewiseSubtractThenAdd acc removed added).val =
      (List.range 128).map (fun k =>
      (((acc.val.getD k 0 : Nat) : ZMod 256)
        - (removed.map (fun f => ((f.getD (k % 32) 0 : Nat) : ZMod 256))).sum
        + (added.map (fun f => ((f.getD (k % 32) 0 : Nat) : ZMod 256))).sum).val) := rfl

/-- Under the stand-in primitive, removing a fingerprint undoes its addition, on a buffer
of bytes. -/
theorem bytewise_undo (acc : Hash128) (hbytes : ∀ b ∈ acc.val, b < 256) (F : Bytes) :
    bytewiseSubtractThenAdd (bytewiseSubtractThenAdd acc [] [F]) [F] [] = acc := by
  apply Subtype.ext
  have hcell : ∀ k ∈ List.range 128,
      (((((bytewiseSubtractThenAdd acc [] [F]).val.getD k 0 : Nat) : ZMod 256)
        - ([F].map (fun f => ((f.getD (k % 32) 0 : Nat) : ZMod 256))).sum
        + (([] : List Bytes).map (fun f => ((f.getD (k % 32) 0 : Nat) : ZMod 256))).sum).val)
      = acc.val.getD k 0 := by
    intro k hk
    have hk128 : k < 128 := List.mem_range.mp hk
    have hlt : acc.val.getD k 0 < 256 := by
      rw [List.getD_eq_getElem?_getD, List.getElem?_eq_getElem (by rw [acc.property]; exact hk128)]
      exact hbytes _ (List.getElem_mem _)
    have hinner : (bytewiseSubtractThenAdd acc [] [F]).val.getD k 0 =
        (((acc.val.getD k 0 : Nat) : ZMod 256) + ((F.getD (k % 32) 0 : Nat) : ZMod 256)).val := by
      rw [bytewise_val, List.getD_eq_getElem?_getD, List.getElem?_map,
        List.getElem?_range hk128]
      simp
    rw [hinner]
    simp only [List.map_cons, List.map_nil, List.sum_cons, List.sum_nil, add_zero,
      ZMod.natCast_val, ZMod.cast_id, id, add_sub_cancel_right]
    rw [ZMod.val_natCast]
    exact Nat.mod_eq_of_lt hlt
  rw [bytewise_val, List.map_congr_left hcell]
  apply List.ext_getElem (by simp [acc.property])
  intro n h1 h2
  simp [List.getD_eq_getElem?_getD, List.getElem?_eq_getElem h2]

/-- C9: end-to-end round trip. `NewHashState()` has version 0, an all-zero accumulator of
128 bytes and an empty log. From it, for every 32-byte fingerprint `F` and index `I`,
`updateHash` on a patch with one SET of `I` whose value blob ends in `F`, the lookup
returning none, succeeds with accumulator `subtractThenAdd(zero, [], [F])`; `updateHash`
on a following patch with one REMOVE of `I`, the lookup returning `F`, succeeds with
accumulator `subtractThenAdd(that, [F], [])`, which is the all-zero accumulator again
whenever the primitive's removal of `F` undoes its addition of `F`. -/
theorem updateHash_round_trip
    (prim : Hash128 → List Bytes → List Bytes → Hash128)
    (F I front value2 : Bytes) (patch1 patch2 : SyncdPatch)
    (lookup1 lookup2 : Bytes → Nat → Option Bytes)
    (hF : F.length = 32)
    (hpatch1 : patch1.Mutations =
      [{ Operation := SyncdMutation_SET, IndexBlob := I, ValueBlob := front ++ F }])
    (hpatch2 : patch2.Mutations =
      [{ Operation := SyncdMutation_REMOVE, IndexBlob := I, ValueBlob := value2 }])
    (hlookup1 : lookup1 I 0 = none) (hlookup2 : lookup2 I 0 = some F) :
    (NewHashState.Version = 0 ∧ NewHashState.Hash.val = List.replicate 128 0 ∧
      NewHashState.Mutations = []) ∧
    NewHashState.updateHash prim patch1 lookup1 =
      some (none, { NewHashState with Hash := (prim NewHashState.Hash [] [F]) }) ∧
    HashState.updateHash prim { NewHashState with Hash := (prim NewHashState.Hash [] [F]) }
        patch2 lookup2 =
      some (none, { NewHashState with
        Hash := (prim (prim NewHashState.Hash [] [F]) [F] []) }) ∧
    (prim (prim NewHashState.Hash [] [F]) [F] [] = NewHashState.Hash →
      HashState.updateHash prim { NewHashState with Hash := (prim NewHashState.Hash [] [F]) }
        patch2 lookup2 = some (none, NewHashState)) := by
  have h1 : NewHashState.updateHash prim patch1 lookup1 =
      some (none, { NewHashState with Hash := (prim NewHashState.Hash [] [F]) }) := by
    simp [HashState.updateHash, hpatch1, updateHashLoop, last32, hlookup1, SET_ne_REMOVE, hF,
      List.drop_append_of_le_length]
  have h2 : HashState.updateHash prim
      { NewHashState with Hash := (prim NewHashState.Hash [] [F]) } patch2 lookup2 =
      some (none, { NewHashState with
        Hash := (prim (prim NewHashState.Hash [] [F]) [F] []) }) := by
    simp [HashState.updateHash, hpatch2, updateHashLoop, hlookup2, SET_ne_REMOVE.symm]
  refine ⟨⟨rfl, rfl, rfl⟩, h1, h2, ?_⟩
  intro hundo
  rw [h2, hundo]

/-- C9, for the fingerprint `fpOne` under the index `indexOne`, with the bytewise stand-in,
whose removal undoes its addition: the second call gives back the fresh state. -/
theorem updateHash_round_trip_witness :
    NewHashState.updateHash bytewiseSubtractThenAdd patchSetOnly lookupNothing =
      some (none, { NewHashState with
        Hash := (bytewiseSubtractThenAdd NewHashState.Hash [] [fpOne]) }) ∧
    HashState.updateHash bytewiseSubtractThenAdd
        { NewHashState with Hash := (bytewiseSubtractThenAdd NewHashState.Hash [] [fpOne]) }
        patchRemoveOnly (fun _ _ => some fpOne) =
      some (none, NewHashState) :=
  have h := updateHash_round_trip bytewiseSubtractThenAdd fpOne indexOne [9, 9] []
    patchSetOnly patchRemoveOnly lookupNothing (fun _ _ => some fpOne)
    (by decide) rfl rfl rfl rfl
  ⟨h.2.1, h.2.2.2 (bytewise_undo NewHashState.Hash
    (by intro b hb; rw [List.eq_of_mem_replicate hb]; decide) fpOne)⟩

/-! ## Boundary safety of the content MAC -/

theorem contentMACData_flatten (operation : Int) (data keyID : Bytes) :
    (contentMACData operation data keyID).flatten =
      [operationByte operation] ++ ((keyID ++ data) ++ uint64ToBytes (keyID.length + 1)) := by
  simp [contentMACData, ← uint64ToBytes_mod (keyID.length + 1)]

/-- C10: boundary safety of the content MAC. For every operation code and key and every
two pairs (keyID, data), (keyID2, data2) with `keyID ++ data = keyID2 ++ data2` and key
ids of different lengths (below 2^64 - 1), the trailing fields
`bigEndian64(len(keyID) + 1)` differ, hence the byte strings that `generateContentMAC`
writes to the keyed hash differ, and the two content MACs differ whenever the 32-byte
truncated tags of the keyed hash on the two messages differ. -/
theorem generateContentMAC_boundary_safe (sha512New : KeyedHash)
    (htag : ∀ k msg, (sha512New k msg).length = 64)
    (operation : Int) (key keyID data keyID2 data2 : Bytes)
    (hcat : keyID ++ data = keyID2 ++ data2)
    (hne : keyID.length ≠ keyID2.length)
    (hlen : keyID.length < 2 ^ 64 - 1) (hlen2 : keyID2.length < 2 ^ 64 - 1) :
    bigEndian64 (keyID.length + 1) ≠ bigEndian64 (keyID2.length + 1) ∧
    (concatAndHMACState sha512New key (contentMACData operation data keyID)).written ≠
      (concatAndHMACState sha512New key (contentMACData operation data2 keyID2)).written ∧
    ((sha512New key
          (concatAndHMACState sha512New key (contentMACData operation data keyID)).written).take 32 ≠
        (sha512New key
          (concatAndHMACState sha512New key (contentMACData operation data2 keyID2)).written).take 32 →
      generateContentMAC sha512New operation data keyID key ≠
        generateContentMAC sha512New operation data2 keyID2 key) := by
  have hfield : uint64ToBytes (keyID.length + 1) ≠ uint64ToBytes (keyID2.length + 1) := by
    intro h
    have := uint64ToBytes_injective (keyID2.length + 1) (keyID.length + 1)
      (by omega) (by omega) h
    omega
  refine ⟨?_, ?_, ?_⟩
  · rw [← uint64ToBytes_eq_bigEndian64, ← uint64ToBytes_eq_bigEndian64]
    exact hfield
  · rw [concatAndHMACState_written, concatAndHMACState_written, contentMACData_flatten,
      contentMACData_flatten, hcat]
    intro h
    exact hfield (List.append_cancel_left (List.append_cancel_left h))
  · intro hdiff hmac
    apply hdiff
    simpa [generateContentMAC, concatAndHMAC_eq, concatAndHMACState_written, first32, htag]
      using hmac

/-- C10, for the pairs ("ab", "cdef") and ("abcd", "ef") of the specification: the
messages differ in their last byte, 3 against 5. -/
theorem generateContentMAC_boundary_safe_witness :
    ([97, 98] ++ [99, 100, 101, 102] : Bytes) = [97, 98, 99, 100] ++ [101, 102] ∧
    (concatAndHMACState (checksumHash 64) [9]
        (contentMACData SyncdMutation_SET [99, 100, 101, 102] [97, 98])).written =
      [1, 97, 98, 99, 100, 101, 102, 0, 0, 0, 0, 0, 0, 0, 3] ∧
    (concatAndHMACState (checksumHash 64) [9]
        (contentMACData SyncdMutation_SET [101, 102] [97, 98, 99, 100])).written =
      [1, 97, 98, 99, 100, 101, 102, 0, 0, 0, 0, 0, 0, 0, 5] ∧
    (concatAndHMACState (checksumHash 64) [9]
        (contentMACData SyncdMutation_SET [99, 100, 101, 102] [97, 98])).written ≠
      (concatAndHMACState (checksumHash 64) [9]
        (contentMACData SyncdMutation_SET [101, 102] [97, 98, 99, 100])).written :=
  ⟨rfl, by decide, by decide,
    (generateContentMAC_boundary_safe (checksumHash 64) (fun _ _ => by simp [checksumHash])
      SyncdMutation_SET [9] [97, 98] [99, 100, 101, 102] [97, 98, 99, 100] [101, 102]
      rfl (by decide) (by decide) (by decide)).2.1⟩

/-! ## In-patch SET then REMOVE -/

/-- Under the stand-in primitive, subtracting and adding the same fingerprint in one call
leaves a buffer of bytes as it was. -/
theorem bytewise_cancel (acc : Hash128) (hbytes : ∀ b ∈ acc.val, b < 256) (F : Bytes) :
    bytewiseSubtractThenAdd acc [F] [F] = acc := by
  apply Subtype.ext
  have hcell : ∀ k ∈ List.range 128,
      ((((acc.val.getD k 0 : Nat) : ZMod 256)
        - ([F].map (fun f => ((f.getD (k % 32) 0 : Nat) : ZMod 256))).sum
        + ([F].map (fun f => ((f.getD (k % 32) 0 : Nat) : ZMod 256))).sum).val)
      = acc.val.getD k 0 := by
    intro k hk
    have hk128 : k < 128 := List.mem_range.mp hk
    have hlt : acc.val.getD k 0 < 256 := by
      rw [List.getD_eq_getElem?_getD, List.getElem?_eq_getElem (by rw [acc.property]; exact hk128)]
      exact hbytes _ (List.getElem_mem _)
    simp only [List.map_cons, List.map_nil, List.sum_cons, List.sum_nil, add_zero,
      sub_add_cancel]
    rw [ZMod.val_natCast]
    exact Nat.mod_eq_of_lt hlt
  rw [bytewise_val, List.map_congr_left hcell]
  apply List.ext_getElem (by simp [acc.property])
  intro n h1 h2
  simp [List.getD_eq_getElem?_getD, List.getElem?_eq_getElem h2]

/-- C14: for every state, index `I` and 32-byte fingerprint `F`, on a patch made of a SET
of `I` whose value blob ends in `F` followed by a REMOVE of `I`, with the lookup
returning none for `(I, 0)` and `F` for `(I, 1)`, `updateHash` succeeds and applies the
primitive with `removed = [F]` and `added = [F]`; the accumulator is the one before the
call whenever the primitive's subtraction of `F` cancels its addition of `F`. -/
theorem updateHash_set_then_remove
    (prim : Hash128 → List Bytes → List Bytes → Hash128) (hs : HashState)
    (F I front value2 : Bytes) (patch : SyncdPatch) (lookup : Bytes → Nat → Option Bytes)
    (hF : F.length = 32)
    (hpatch : patch.Mutations =
      [{ Operation := SyncdMutation_SET, IndexBlob := I, ValueBlob := front ++ F },
       { Operation := SyncdMutation_REMOVE, IndexBlob := I, ValueBlob := value2 }])
    (hlookup0 : lookup I 0 = none) (hlookup1 : lookup I 1 = some F) :
    hs.updateHash prim patch lookup =
      some (none, { hs with Hash := (prim hs.Hash [F] [F]) }) ∧
    (prim hs.Hash [F] [F] = hs.Hash → hs.updateHash prim patch lookup = some (none, hs)) := by
  have h : hs.updateHash prim patch lookup =
      some (none, { hs with Hash := (prim hs.Hash [F] [F]) }) := by
    simp [HashState.updateHash, hpatch, updateHashLoop, last32, hlookup0, hlookup1,
      SET_ne_REMOVE, SET_ne_REMOVE.symm, hF, List.drop_append_of_le_length]
  refine ⟨h, ?_⟩
  intro hcancel
  rw [h, hcancel]

/-- C14, on the patch `patchSetRemove` from the fresh state, with the bytewise stand-in,
whose subtraction of `fpOne` cancels its addition. -/
theorem updateHash_set_then_remove_witness :
    lookupAfterSet indexOne 0 = none ∧ lookupAfterSet indexOne 1 = some fpOne ∧
    NewHashState.updateHash bytewiseSubtractThenAdd patchSetRemove lookupAfterSet =
      some (none, NewHashState) :=
  ⟨rfl, rfl,
    (updateHash_set_then_remove bytewiseSubtractThenAdd NewHashState fpOne indexOne [9, 9] []
      patchSetRemove lookupAfterSet (by decide) rfl rfl rfl).2
      (bytewise_cancel NewHashState.Hash
        (by intro b hb; rw [List.eq_of_mem_replicate hb]; decide) fpOne)⟩

/-! ## Frame of the updater and safety of its slice -/

theorem trailing32_length {blob : Bytes} (h : 32 ≤ blob.length) :
    (trailing32 blob).length = 32 := by
  simp only [trailing32, List.length_drop]
  omega

theorem length_of_mem_specAdded_singleton (m : SyncdMutation)
    (hset : m.Operation = SyncdMutation_SET → 32 ≤ m.ValueBlob.length) :
    ∀ fp ∈ specAdded [m], fp.length = 32 := by
  intro fp hfp
  by_cases hop : m.Operation = SyncdMutation_SET
  · rw [specAdded_singleton_SET m hop, List.mem_singleton] at hfp
    rw [hfp]; exact trailing32_length (hset hop)
  · rw [specAdded_singleton_other m hop] at hfp
    exact absurd hfp (List.not_mem_nil _)

/-- When every SET has a value blob of 32 bytes or more, the loop does not panic and
every fingerprint it has put in `added` has 32 bytes. -/
theorem updateHashLoop_safe (lookup : Bytes → Nat → Option Bytes) :
    ∀ (mutations : List SyncdMutation) (i : Nat) (v : LoopVars),
      (∀ m ∈ mutations, m.Operation = SyncdMutation_SET → 32 ≤ m.ValueBlob.length) →
      (∀ fp ∈ v.added, fp.length = 32) →
      (∀ w, updateHashLoop lookup mutations i v ≠ LoopExit.panicked w) ∧
      ∀ fp ∈ (updateHashLoop lookup mutations i v).vars.added, fp.length = 32 := by
  intro mutations
  induction mutations with
  | nil =>
    intro i v _ hv
    simp only [updateHashLoop, LoopExit.vars]
    exact ⟨fun w h => by simp at h, hv⟩
  | cons m rest ih =>
    intro i v hset hv
    have hhead := hset m (List.mem_cons_self _ _)
    have hrest : ∀ x ∈ rest, x.Operation = SyncdMutation_SET → 32 ≤ x.ValueBlob.length :=
      fun x hx => hset x (List.mem_cons_of_mem _ hx)
    by_cases hbad : m.Operation = SyncdMutation_REMOVE ∧ lookup m.IndexBlob i = none
    · rw [updateHashLoop_cons_returned lookup m rest i v hbad.1 hbad.2]
      exact ⟨fun w h => by simp at h, hv⟩
    · rw [updateHashLoop_cons lookup m rest i v hhead (fun hop hl => hbad ⟨hop, hl⟩)]
      apply ih (i + 1) _ hrest
      intro fp hfp
      rcases List.mem_append.mp hfp with h | h
      · exact hv fp h
      · exact length_of_mem_specAdded_singleton m hhead fp h

/-- The loop does not read the value blob of a mutation that is not a SET. -/
theorem updateHashLoop_dropOtherBlob (lookup : Bytes → Nat → Option Bytes) :
    ∀ (mutations : List SyncdMutation) (i : Nat) (v : LoopVars),
      updateHashLoop lookup (mutations.map dropOtherBlob) i v =
        updateHashLoop lookup mutations i v := by
  intro mutations
  induction mutations with
  | nil => intro i v; rfl
  | cons m rest ih =>
    intro i v
    by_cases hop : m.Operation = SyncdMutation_SET
    · simp only [List.map_cons, updateHashLoop, dropOtherBlob, hop, if_true, ih]
    · simp only [List.map_cons, updateHashLoop, dropOtherBlob, hop, if_false, ih]

/-- A call whose SET mutations have value blobs of 32 bytes or more returns. -/
theorem updateHash_returns
    (prim : Hash128 → List Bytes → List Bytes → Hash128) (hs : HashState)
    (patch : SyncdPatch) (lookup : Bytes → Nat → Option Bytes)
    (hset : ∀ m ∈ patch.Mutations, m.Operation = SyncdMutation_SET → 32 ≤ m.ValueBlob.length) :
    ∃ err st, hs.updateHash prim patch lookup = some (err, st) := by
  have hsafe := (updateHashLoop_safe lookup patch.Mutations 0
    { added := [], removed := [], calls := [] } hset (by simp)).1
  unfold HashState.updateHash
  cases hloop : updateHashLoop lookup patch.Mutations 0
      { added := [], removed := [], calls := [] } with
  | completed v => exact ⟨_, _, rfl⟩
  | returned err v => exact ⟨_, _, rfl⟩
  | panicked v => exact absurd hloop (hsafe v)

/-- C17: `updateHash` changes only the accumulator. For every state, patch and lookup,
the receiver has the version and the log of applied mutations it had before the call,
whichever way the call is left; in particular when the call returns, with or without
the error, the state after it has them; and the call does return when the SET mutations
have value blobs of 32 bytes or more. The version is not advanced here. -/
theorem updateHash_frame
    (prim : Hash128 → List Bytes → List Bytes → Hash128) (hs : HashState)
    (patch : SyncdPatch) (lookup : Bytes → Nat → Option Bytes) :
    (hs.updateHashReceiver prim patch lookup).Version = hs.Version ∧
    (hs.updateHashReceiver prim patch lookup).Mutations = hs.Mutations ∧
    (∀ err st, hs.updateHash prim patch lookup = some (err, st) →
      st = hs.updateHashReceiver prim patch lookup ∧
      st.Version = hs.Version ∧ st.Mutations = hs.Mutations) ∧
    ((∀ m ∈ patch.Mutations, m.Operation = SyncdMutation_SET → 32 ≤ m.ValueBlob.length) →
      ∃ err st, hs.updateHash prim patch lookup = some (err, st)) := by
  refine ⟨?_, ?_, ?_, updateHash_returns prim hs patch lookup⟩
  · unfold HashState.updateHashReceiver
    split <;> rfl
  · unfold HashState.updateHashReceiver
    split <;> rfl
  · intro err st h
    unfold HashState.updateHash at h
    unfold HashState.updateHashReceiver
    cases hloop : updateHashLoop lookup patch.Mutations 0
        { added := [], removed := [], calls := [] } with
    | completed v =>
      rw [hloop] at h
      simp only [Option.some.injEq, Prod.mk.injEq] at h
      rw [← h.2]
      exact ⟨rfl, rfl, rfl⟩
    | returned e v =>
      rw [hloop] at h
      simp only [Option.some.injEq, Prod.mk.injEq] at h
      rw [← h.2]
      exact ⟨rfl, rfl, rfl⟩
    | panicked v => rw [hloop] at h; simp at h

/-- C17, on a call that succeeds (`patchSetRemove`) and on a call that fails
(`patchBadRemove`), from the fresh state. -/
theorem updateHash_frame_witness :
    (∃ st, NewHashState.updateHash bytewiseSubtractThenAdd patchSetRemove lookupAfterSet =
        some (none, st) ∧ st.Version = 0 ∧ st.Mutations = []) ∧
    (∃ st, NewHashState.updateHash bytewiseSubtractThenAdd patchBadRemove lookupNothing =
        some (some AppStateError.ErrMissingPreviousSetValueOperation, st) ∧
      st.Version = 0 ∧ st.Mutations = []) :=
  ⟨⟨_, rfl, ((updateHash_frame bytewiseSubtractThenAdd NewHashState patchSetRemove
      lookupAfterSet).2.2.1 _ _ rfl).2⟩,
    ⟨_, rfl, ((updateHash_frame bytewiseSubtractThenAdd NewHashState patchBadRemove
      lookupNothing).2.2.1 _ _ rfl).2⟩⟩

/-- C19: `updateHash` reads the value blob of SET mutations only. For every state, lookup
and patch whose SET mutations all have a value blob of 32 bytes or more, the slice of
the trailing 32 bytes is in range each time it is taken: the loop does not panic and
the call returns, whatever the value blobs of the other mutations are, which can be
emptied without changing the result; and every fingerprint put in `added` has exactly
32 bytes. -/
theorem updateHash_slice_in_range
    (prim : Hash128 → List Bytes → List Bytes → Hash128) (hs : HashState)
    (patch : SyncdPatch) (lookup : Bytes → Nat → Option Bytes)
    (hset : ∀ m ∈ patch.Mutations, m.Operation = SyncdMutation_SET → 32 ≤ m.ValueBlob.length) :
    (∀ w, updateHashLoop lookup patch.Mutations 0 { added := [], removed := [], calls := [] } ≠
      LoopExit.panicked w) ∧
    (∃ err st, hs.updateHash prim patch lookup = some (err, st)) ∧
    (∀ fp ∈ (updateHashLoop lookup patch.Mutations 0
        { added := [], removed := [], calls := [] }).vars.added, fp.length = 32) ∧
    hs.updateHash prim { patch with Mutations := patch.Mutations.map dropOtherBlob } lookup =
      hs.updateHash prim patch lookup := by
  have hsafe := updateHashLoop_safe lookup patch.Mutations 0
    { added := [], removed := [], calls := [] } hset (by simp)
  refine ⟨hsafe.1, updateHash_returns prim hs patch lookup hset, hsafe.2, ?_⟩
  simp only [HashState.updateHash, updateHashLoop_dropOtherBlob]

/-- C19, on the patch `patchSetRemove`, whose REMOVE has an empty value blob: the call
returns. -/
theorem updateHash_slice_in_range_witness :
    (∀ m ∈ patchSetRemove.Mutations,
      m.Operation = SyncdMutation_SET → 32 ≤ m.ValueBlob.length) ∧
    (∃ m ∈ patchSetRemove.Mutations, m.Operation = SyncdMutation_REMOVE ∧ m.ValueBlob = []) ∧
    ∃ err st, NewHashState.updateHash bytewiseSubtractThenAdd patchSetRemove lookupAfterSet =
      some (err, st) :=
  ⟨by decide, by decide,
    (updateHash_slice_in_range bytewiseSubtractThenAdd NewHashState patchSetRemove
      lookupAfterSet (by decide)).2.1⟩

/-! ## The calls of the lookup -/

theorem enumFrom_take (mutations : List SyncdMutation) :
    ∀ (k i : Nat), (mutations.take k).enumFrom i = (mutations.enumFrom i).take k := by
  induction mutations with
  | nil => intro k i; simp [List.enumFrom]
  | cons m rest ih =>
    intro k i
    cases k with
    | zero => simp [List.enumFrom]
    | succ k => simp [List.enumFrom, ih k (i + 1)]

theorem updateHashCalls_eq (patch : SyncdPatch) (lookup : Bytes → Nat → Option Bytes) :
    HashState.updateHashCalls patch lookup =
      (updateHashLoop lookup patch.Mutations 0
        { added := [], removed := [], calls := [] }).vars.calls := by
  unfold HashState.updateHashCalls
  split <;> rename_i h <;> rw [h] <;> rfl

/-- The calls made by the loop are the calls for an initial segment of the mutations, in
order; for all of them when the loop runs to its end. -/
theorem updateHashLoop_calls (lookup : Bytes → Nat → Option Bytes) :
    ∀ (mutations : List SyncdMutation) (i : Nat) (v : LoopVars),
      ∃ c, c ≤ mutations.length ∧
        (updateHashLoop lookup mutations i v).vars.calls =
          v.calls ++ ((mutations.enumFrom i).take c).map (fun p => (p.2.IndexBlob, p.1)) ∧
        (∀ w, updateHashLoop lookup mutations i v = LoopExit.completed w →
          c = mutations.length) := by
  intro mutations
  induction mutations with
  | nil =>
    intro i v
    exact ⟨0, Nat.le_refl _, by simp [updateHashLoop, LoopExit.vars], fun _ _ => rfl⟩
  | cons m rest ih =>
    intro i v
    by_cases hp : m.Operation = SyncdMutation_SET ∧ m.ValueBlob.length < 32
    · rw [updateHashLoop_cons_panicked lookup m rest i v hp.1 hp.2]
      exact ⟨0, Nat.zero_le _, by simp [LoopExit.vars], fun w h => by simp at h⟩
    · by_cases hbad : m.Operation = SyncdMutation_REMOVE ∧ lookup m.IndexBlob i = none
      · rw [updateHashLoop_cons_returned lookup m rest i v hbad.1 hbad.2]
        exact ⟨1, by simp, by simp [LoopExit.vars, List.enumFrom], fun w h => by simp at h⟩
      · rw [updateHashLoop_cons lookup m rest i v
          (fun hop => Nat.le_of_not_lt (fun hlt => hp ⟨hop, hlt⟩))
          (fun hop hl => hbad ⟨hop, hl⟩)]
        obtain ⟨c, hc, hcalls, hall⟩ := ih (i + 1)
          { added := v.added ++ specAdded [m],
            removed := v.removed ++ (lookup m.IndexBlob i).toList,
            calls := v.calls ++ [(m.IndexBlob, i)] }
        refine ⟨c + 1, by simpa using hc, ?_, ?_⟩
        · rw [hcalls]; simp [List.enumFrom]
        · intro w hw
          simp [hall w hw]

/-- C13, as amended: in every invocation of `updateHash` the calls of the lookup are the
calls `(indexBlob_0, 0), (indexBlob_1, 1), ...` for an initial segment of the mutations:
none is repeated or out of order, and the position bound for mutation `i` is `i`. They
are the calls for all `n` mutations, one each, when the invocation returns no error;
when it returns the error they end with the call for the first REMOVE that does not
resolve. -/
theorem updateHash_lookup_calls (patch : SyncdPatch) (lookup : Bytes → Nat → Option Bytes) :
    (∃ c, c ≤ patch.Mutations.length ∧
      HashState.updateHashCalls patch lookup = (specCalls patch.Mutations).take c) ∧
    (∀ prim hs st, HashState.updateHash prim hs patch lookup = some (none, st) →
      HashState.updateHashCalls patch lookup = specCalls patch.Mutations) ∧
    (∀ k, UnresolvedRemoveAt lookup patch.Mutations k →
      (∀ j, j < k → ¬ UnresolvedRemoveAt lookup patch.Mutations j) →
      (∀ (j : Nat) (x : SyncdMutation), j < k → patch.Mutations[j]? = some x →
        x.Operation = SyncdMutation_SET → 32 ≤ x.ValueBlob.length) →
      HashState.updateHashCalls patch lookup = (specCalls patch.Mutations).take (k + 1)) := by
  obtain ⟨c, hc, hcalls, hall⟩ := updateHashLoop_calls lookup patch.Mutations 0
    { added := [], removed := [], calls := [] }
  refine ⟨⟨c, hc, ?_⟩, ?_, ?_⟩
  · rw [updateHashCalls_eq, hcalls]; simp [specCalls, List.map_take]
  · intro prim hs st hsucc
    obtain ⟨vEnd, hloop, _⟩ := updateHash_completed_of_success prim hs st patch lookup hsucc
    rw [updateHashCalls_eq, hcalls, hall vEnd hloop]
    simp [specCalls]
  · intro k hk hfirst hset
    obtain ⟨m, hm, hop, hnone⟩ := hk
    have h := updateHashLoop_returned lookup patch.Mutations 0
      { added := [], removed := [], calls := [] } k m hm hop (by simpa using hnone)
      (by
        intro j x hj hx hxo hl
        exact hfirst j hj ⟨x, hx, hxo, by simpa using hl⟩)
      hset
    rw [updateHashCalls_eq, h]
    simp [LoopExit.vars, specCalls, enumFrom_take, List.map_take]

/-- C13 fails as stated: on `patchBadRemove`, whose second mutation is a REMOVE that does
not resolve, the lookup is called for the first two of the three mutations only. -/
theorem updateHash_lookup_calls_counterexample :
    patchBadRemove.Mutations.length = 3 ∧
    HashState.updateHashCalls patchBadRemove lookupNothing = [(indexOne, 0), ([8], 1)] ∧
    specCalls patchBadRemove.Mutations = [(indexOne, 0), ([8], 1), ([5], 2)] ∧
    HashState.updateHashCalls patchBadRemove lookupNothing ≠ specCalls patchBadRemove.Mutations := by
  decide

/-- C13 as amended, on `patchSetRemove`, which succeeds (two calls for two mutations),
and on `patchBadRemove`, which fails at position 1 (two calls for three mutations). -/
theorem updateHash_lookup_calls_witness :
    HashState.updateHashCalls patchSetRemove lookupAfterSet = [(indexOne, 0), (indexOne, 1)] ∧
    HashState.updateHashCalls patchBadRemove lookupNothing =
      (specCalls patchBadRemove.Mutations).take 2 :=
  ⟨(updateHash_lookup_calls patchSetRemove lookupAfterSet).2.1 bytewiseSubtractThenAdd
      NewHashState _ rfl,
    (updateHash_lookup_calls patchBadRemove lookupNothing).2.2 1 ⟨_, rfl, rfl, rfl⟩
      (by
        intro j hj hbad
        obtain ⟨x, hx, hxo, _⟩ := hbad
        have hj0 : j = 0 := by omega
        subst hj0
        simp [patchBadRemove] at hx
        rw [← hx] at hxo
        exact absurd hxo (by decide))
      (by
        intro j x hj hx _
        have hj0 : j = 0 := by omega
        subst hj0
        simp [patchBadRemove] at hx
        rw [← hx]; decide)⟩

/-! ## The messages of the three MACs -/

theorem snapshotMACWritten_eq (alg : KeyedHash) (hs : HashState) (name key : Bytes) :
    hs.snapshotMACWritten alg name key = hs.Hash.val ++ (uint64ToBytes hs.Version ++ name) := by
  simp [HashState.snapshotMACWritten, HashState.snapshotMACData, concatAndHMACState_written]

theorem patchMACData_eq (patch : SyncdPatch) (name : Bytes)
    (hlen : ∀ m ∈ patch.Mutations, 32 ≤ m.ValueBlob.length) :
    patchMACData patch name =
      some ([patch.SnapshotMac] ++ patch.Mutations.map (fun m => trailing32 m.ValueBlob) ++
        [uint64ToBytes patch.Version, name]) := by
  have hloop := patchMACLoop_eq patch.Mutations 0 [patch.SnapshotMac] [[], []] rfl hlen
  have hinit : (List.replicate (patch.Mutations.length + 3) ([] : Bytes)).set 0 patch.SnapshotMac
      = [patch.SnapshotMac] ++ List.replicate patch.Mutations.length [] ++ [[], []] := by
    rw [show patch.Mutations.length + 3 = (patch.Mutations.length + 1) + 2 from rfl,
      List.replicate_add, List.replicate_succ]
    rfl
  simp only [patchMACData, hinit, hloop]
  simp [List.set_append]

theorem patchMACWritten_eq (alg : KeyedHash) (patch : SyncdPatch) (name key : Bytes)
    (hlen : ∀ m ∈ patch.Mutations, 32 ≤ m.ValueBlob.length) :
    patchMACWritten alg patch name key =
      some (patch.SnapshotMac ++
        ((patch.Mutations.map (fun m => trailing32 m.ValueBlob)).flatten ++
          (uint64ToBytes patch.Version ++ name))) := by
  simp [patchMACWritten, patchMACData_eq patch name hlen, concatAndHMACState_written]

theorem contentMACWritten_eq (alg : KeyedHash) (operation : Int) (data keyID key : Bytes) :
    contentMACWritten alg operation data keyID key =
      [operationByte operation] ++ ((keyID ++ data) ++ uint64ToBytes (keyID.length + 1)) := by
  rw [contentMACWritten, concatAndHMACState_written, contentMACData_flatten]

theorem generateSnapshotMAC_of_written (alg : KeyedHash) (hs : HashState) (name key : Bytes) :
    hs.generateSnapshotMAC alg name key = alg key (hs.snapshotMACWritten alg name key) := by
  simp [HashState.generateSnapshotMAC, HashState.snapshotMACWritten, concatAndHMAC_eq,
    concatAndHMACState_written]

theorem generatePatchMAC_of_written (alg : KeyedHash) (patch : SyncdPatch) (name key : Bytes) :
    generatePatchMAC alg patch name key = (patchMACWritten alg patch name key).map (alg key) := by
  simp only [generatePatchMAC, patchMACWritten, Option.map_map]
  congr 1
  funext dataToHash
  simp [concatAndHMAC_eq, concatAndHMACState_written]

theorem generateContentMAC_of_written (alg : KeyedHash) (operation : Int)
    (data keyID key : Bytes) :
    generateContentMAC alg operation data keyID key =
      first32 (alg key (contentMACWritten alg operation data keyID key)) := by
  simp [generateContentMAC, contentMACWritten, concatAndHMAC_eq, concatAndHMACState_written]

/-! ## Sizes of the MACs -/

/-- C12: with a keyed hash over SHA-256 of 32-byte tags and a keyed hash over SHA-512 of
64-byte tags, each of the three MAC functions returns exactly 32 bytes wherever it is
defined. `generateSnapshotMAC` and `generatePatchMAC` return the whole tag of what they
wrote, the latter being defined when every value blob has 32 bytes or more;
`generateContentMAC` is always defined and returns the first 32 of the 64 bytes of the
tag, a slice that is in range. -/
theorem mac_sizes (sha256New sha512New : KeyedHash)
    (h256 : ∀ k msg, (sha256New k msg).length = 32)
    (h512 : ∀ k msg, (sha512New k msg).length = 64)
    (hs : HashState) (patch : SyncdPatch) (name key : Bytes)
    (operation : Int) (data keyID : Bytes) :
    (hs.generateSnapshotMAC sha256New name key =
        sha256New key (hs.snapshotMACWritten sha256New name key) ∧
      (hs.generateSnapshotMAC sha256New name key).length = 32) ∧
    (∀ out, generatePatchMAC sha256New patch name key = some out →
      (∃ msg, patchMACWritten sha256New patch name key = some msg ∧ out = sha256New key msg) ∧
      out.length = 32) ∧
    ((∀ m ∈ patch.Mutations, 32 ≤ m.ValueBlob.length) →
      ∃ out, generatePatchMAC sha256New patch name key = some out ∧ out.length = 32) ∧
    (32 ≤ (sha512New key (contentMACWritten sha512New operation data keyID key)).length ∧
      generateContentMAC sha512New operation data keyID key =
        some ((sha512New key (contentMACWritten sha512New operation data keyID key)).take 32) ∧
      ((sha512New key (contentMACWritten sha512New operation data keyID key)).take 32).length
        = 32) := by
  refine ⟨⟨generateSnapshotMAC_of_written _ hs name key, ?_⟩, ?_, ?_, ?_, ?_, ?_⟩
  · rw [generateSnapshotMAC_of_written]; exact h256 _ _
  · intro out hout
    rw [generatePatchMAC_of_written] at hout
    obtain ⟨msg, hmsg, hmac⟩ := Option.map_eq_some'.mp hout
    exact ⟨⟨msg, hmsg, hmac.symm⟩, by rw [← hmac]; exact h256 _ _⟩
  · intro hlen
    rw [generatePatchMAC_of_written, patchMACWritten_eq _ patch name key hlen]
    exact ⟨_, rfl, h256 _ _⟩
  · rw [h512]; decide
  · rw [generateContentMAC_of_written]
    simp [first32, h512]
  · simp [h512]

/-- C12, with the checksum stand-ins of 32 and 64 bytes: the three MACs of concrete
inputs have 32 bytes. -/
theorem mac_sizes_witness :
    (NewHashState.generateSnapshotMAC (checksumHash 32) [110] [1, 2]).length = 32 ∧
    (∃ out, generatePatchMAC (checksumHash 32) patchTwoValues [110] [1, 2] = some out ∧
      out.length = 32) ∧
    (∃ out, generateContentMAC (checksumHash 64) SyncdMutation_REMOVE [3, 4, 5] [1, 2] [1, 2] =
      some out ∧ out.length = 32) :=
  have h := mac_sizes (checksumHash 32) (checksumHash 64)
    (fun _ _ => by simp [checksumHash]) (fun _ _ => by simp [checksumHash])
    NewHashState patchTwoValues [110] [1, 2] SyncdMutation_REMOVE [3, 4, 5] [1, 2]
  ⟨h.1.2, h.2.2.1 (by decide), ⟨_, h.2.2.2.2.1, h.2.2.2.2.2⟩⟩

/-! ## What the messages determine -/

/-- C15: the snapshot MAC commits the whole state, scoped to a collection. The bytes that
`generateSnapshotMAC` writes to the keyed hash determine the accumulator, the version (a
64-bit value) and the collection name: for all states `s`, `s2` and names `n`, `n2`, equal
messages give `s.Hash = s2.Hash`, `s.Version = s2.Version` and `n = n2`. -/
theorem snapshotMAC_message_injective (sha256New : KeyedHash) (key : Bytes)
    (s s2 : HashState) (n n2 : Bytes)
    (hv : s.Version < 2 ^ 64) (hv2 : s2.Version < 2 ^ 64)
    (heq : s.snapshotMACWritten sha256New n key = s2.snapshotMACWritten sha256New n2 key) :
    s.Hash = s2.Hash ∧ s.Version = s2.Version ∧ n = n2 := by
  rw [snapshotMACWritten_eq, snapshotMACWritten_eq] at heq
  obtain ⟨hhash, hrest⟩ := List.append_inj heq (by rw [s.Hash.property, s2.Hash.property])
  obtain ⟨hver, hname⟩ := List.append_inj hrest
    (by rw [uint64ToBytes_length, uint64ToBytes_length])
  exact ⟨Subtype.ext hhash, uint64ToBytes_injective _ _ hv2 hv hver, hname⟩

/-- C15, on the fresh state: a message equal to itself, and, in the contrapositive, two
collection names whose messages differ. -/
theorem snapshotMAC_message_injective_witness :
    (NewHashState.Hash = NewHashState.Hash ∧ NewHashState.Version = NewHashState.Version ∧
      ([110] : Bytes) = [110]) ∧
    NewHashState.snapshotMACWritten (checksumHash 32) [110] [1, 2] ≠
      NewHashState.snapshotMACWritten (checksumHash 32) [111] [1, 2] :=
  ⟨snapshotMAC_message_injective (checksumHash 32) [1, 2] NewHashState NewHashState
      [110] [110] (by decide) (by decide) rfl,
    fun heq => absurd
      (snapshotMAC_message_injective (checksumHash 32) [1, 2] NewHashState NewHashState
        [110] [111] (by decide) (by decide) heq).2.2
      (by decide)⟩

/-- C18: the message of the patch MAC does not determine the patch. For every snapshot
commitment `S` and 32-byte block `F`, the patch with commitment `S` and the single mutation
of value blob `F`, and the patch with commitment `S ++ F` and no mutation, of the same
declared version, are two different patches for which `generatePatchMAC` writes the same
bytes to the keyed hash, hence returns the same MAC, for every key and every collection
name. -/
theorem patchMAC_message_not_injective (sha256New : KeyedHash) (name key : Bytes)
    (version : Nat) (S F index : Bytes) (operation : Int) (hF : F.length = 32) :
    patchOneValue version S F index operation ≠ patchLongCommitment version S F ∧
    patchMACWritten sha256New (patchOneValue version S F index operation) name key =
      some (S ++ F ++ bigEndian64 version ++ name) ∧
    patchMACWritten sha256New (patchLongCommitment version S F) name key =
      some (S ++ F ++ bigEndian64 version ++ name) ∧
    generatePatchMAC sha256New (patchOneValue version S F index operation) name key =
      generatePatchMAC sha256New (patchLongCommitment version S F) name key ∧
    generatePatchMAC sha256New (patchOneValue version S F index operation) name key =
      some (sha256New key (S ++ F ++ bigEndian64 version ++ name)) := by
  have hF32 : trailing32 F = F := by simp [trailing32, hF]
  have h1 : patchMACWritten sha256New (patchOneValue version S F index operation) name key =
      some (S ++ F ++ bigEndian64 version ++ name) := by
    rw [patchMACWritten_eq _ _ _ _ (by simp [patchOneValue, hF])]
    simp [patchOneValue, hF32, uint64ToBytes_eq_bigEndian64]
  have h2 : patchMACWritten sha256New (patchLongCommitment version S F) name key =
      some (S ++ F ++ bigEndian64 version ++ name) := by
    rw [patchMACWritten_eq _ _ _ _ (by simp [patchLongCommitment])]
    simp [patchLongCommitment, uint64ToBytes_eq_bigEndian64]
  refine ⟨?_, h1, h2, ?_, ?_⟩
  · intro h
    have := congrArg (fun p => p.Mutations.length) h
    simp [patchOneValue, patchLongCommitment] at this
  · rw [generatePatchMAC_of_written, generatePatchMAC_of_written, h1, h2]
  · rw [generatePatchMAC_of_written, h1]; rfl

/-- C18, for the commitment of 32 bytes 6 and the block `fpOne`. -/
theorem patchMAC_message_not_injective_witness :
    patchOneValue 3 (List.replicate 32 6) fpOne indexOne SyncdMutation_SET ≠
      patchLongCommitment 3 (List.replicate 32 6) fpOne ∧
    generatePatchMAC (checksumHash 32)
        (patchOneValue 3 (List.replicate 32 6) fpOne indexOne SyncdMutation_SET) [110] [1, 2] =
      generatePatchMAC (checksumHash 32)
        (patchLongCommitment 3 (List.replicate 32 6) fpOne) [110] [1, 2] :=
  have h := patchMAC_message_not_injective (checksumHash 32) [110] [1, 2] 3
    (List.replicate 32 6) fpOne indexOne SyncdMutation_SET (by decide)
  ⟨h.1, h.2.2.2.1⟩

/-! ## The operation byte -/

theorem operationByte_eq_zero_iff (operation : Int) :
    operationByte operation = 0 ↔ operation % 256 = 255 := by
  unfold operationByte
  omega

/-- C16 fails as stated: the operation codes 255 and -1, values of the `int32` enum type,
give the operation byte 0. -/
theorem operation_byte_counterexample :
    operationByte 255 = 0 ∧ operationByte (-1) = 0 ∧
    (contentMACWritten (checksumHash 64) 255 [3] [1] [9]).head? = some 0 := by
  decide

/-- C16, as amended: for every operation code passed to `generateContentMAC`, the single
operation byte written first to the keyed hash is the operation code plus one modulo 256.
It is the operation code offset by one, and not 0, for every code from 0 to 254 (SET gives
1 and REMOVE gives 2); it is 0 exactly when the code is 255 modulo 256. -/
theorem operation_byte (sha512New : KeyedHash) (operation : Int) (data keyID key : Bytes) :
    (contentMACWritten sha512New operation data keyID key).head? =
      some (operationByte operation) ∧
    (operationByte operation : Int) = (operation + 1) % 256 ∧
    (0 ≤ operation → operation ≤ 254 →
      (operationByte operation : Int) = operation + 1 ∧ operationByte operation ≠ 0) ∧
    operationByte SyncdMutation_SET = 1 ∧ operationByte SyncdMutation_REMOVE = 2 ∧
    (operationByte operation = 0 ↔ operation % 256 = 255) := by
  refine ⟨?_, ?_, ?_, by decide, by decide, operationByte_eq_zero_iff operation⟩
  · rw [contentMACWritten_eq]; rfl
  · unfold operationByte; omega
  · intro h0 h254
    unfold operationByte
    omega

/-- C16 as amended, for the code 254, the largest whose byte is the code plus one. -/
theorem operation_byte_witness :
    (contentMACWritten (checksumHash 64) 254 [3] [1] [9]).head? = some 255 ∧
    ((operationByte 254 : Int) = 254 + 1 ∧ operationByte 254 ≠ 0) :=
  ⟨by decide,
    (operation_byte (checksumHash 64) 254 [3] [1] [9]).2.2.1 (by decide) (by decide)⟩

/-! ## Sensitivity of the MACs to each field -/

theorem snapshotMACWritten_sensitive (alg : KeyedHash) (key : Bytes) (hs : HashState)
    (name : Bytes) :
    (∀ H2 : Hash128, H2 ≠ hs.Hash →
      HashState.snapshotMACWritten alg { hs with Hash := H2 } name key ≠
        hs.snapshotMACWritten alg name key) ∧
    (∀ V2 : Nat, hs.Version < 2 ^ 64 → V2 < 2 ^ 64 → V2 ≠ hs.Version →
      HashState.snapshotMACWritten alg { hs with Version := V2 } name key ≠
        hs.snapshotMACWritten alg name key) ∧
    (∀ name2 : Bytes, name2 ≠ name →
      hs.snapshotMACWritten alg name2 key ≠ hs.snapshotMACWritten alg name key) := by
  refine ⟨?_, ?_, ?_⟩
  · intro H2 hne heq
    rw [snapshotMACWritten_eq, snapshotMACWritten_eq] at heq
    exact hne (Subtype.ext
      (List.append_inj heq (by rw [H2.property, hs.Hash.property])).1)
  · intro V2 hv hv2 hne heq
    rw [snapshotMACWritten_eq, snapshotMACWritten_eq] at heq
    have h := List.append_inj (List.append_cancel_left heq)
      (by rw [uint64ToBytes_length, uint64ToBytes_length])
    exact hne (uint64ToBytes_injective _ _ hv hv2 h.1)
  · intro name2 hne heq
    rw [snapshotMACWritten_eq, snapshotMACWritten_eq] at heq
    exact hne (List.append_cancel_left (List.append_cancel_left heq))

theorem patchMACWritten_sensitive (alg : KeyedHash) (key : Bytes) (patch : SyncdPatch)
    (name : Bytes) (hlen : ∀ m ∈ patch.Mutations, 32 ≤ m.ValueBlob.length) :
    (∀ (before after : List SyncdMutation) (m : SyncdMutation) (blob2 : Bytes),
      patch.Mutations = before ++ m :: after → 32 ≤ blob2.length →
      trailing32 blob2 ≠ trailing32 m.ValueBlob →
      patchMACWritten alg
          { patch with Mutations := (before ++ { m with ValueBlob := blob2 } :: after) }
          name key ≠
        patchMACWritten alg patch name key) ∧
    (∀ S2 : Bytes, S2 ≠ patch.SnapshotMac →
      patchMACWritten alg { patch with SnapshotMac := S2 } name key ≠
        patchMACWritten alg patch name key) ∧
    (∀ V2 : Nat, patch.Version < 2 ^ 64 → V2 < 2 ^ 64 → V2 ≠ patch.Version →
      patchMACWritten alg { patch with Version := V2 } name key ≠
        patchMACWritten alg patch name key) ∧
    (∀ name2 : Bytes, name2 ≠ name →
      patchMACWritten alg patch name2 key ≠ patchMACWritten alg patch name key) := by
  refine ⟨?_, ?_, ?_, ?_⟩
  · intro before after m blob2 hmuts hblob hne heq
    have hlen2 : ∀ x ∈ before ++ { m with ValueBlob := blob2 } :: after,
        32 ≤ x.ValueBlob.length := by
      intro x hx
      rcases List.mem_append.mp hx with h | h
      · exact hlen x (by rw [hmuts]; exact List.mem_append_left _ h)
      · rcases List.mem_cons.mp h with h | h
        · rw [h]; exact hblob
        · exact hlen x (by rw [hmuts]; exact List.mem_append_right _ (List.mem_cons_of_mem _ h))
    rw [patchMACWritten_eq alg _ name key hlen2, patchMACWritten_eq alg patch name key hlen,
      hmuts] at heq
    simp only [Option.some.injEq, List.map_append, List.map_cons, List.flatten_append,
      List.flatten_cons, List.append_assoc] at heq
    have h := List.append_inj (List.append_cancel_left (List.append_cancel_left heq))
      (by rw [trailing32_length hblob,
        trailing32_length (hlen m (by rw [hmuts]; simp))])
    exact hne h.1
  · intro S2 hne heq
    rw [patchMACWritten_eq alg patch name key hlen,
      patchMACWritten_eq alg { patch with SnapshotMac := S2 } name key hlen] at heq
    simp only [Option.some.injEq] at heq
    exact hne (List.append_cancel_right heq)
  · intro V2 hv hv2 hne heq
    rw [patchMACWritten_eq alg patch name key hlen,
      patchMACWritten_eq alg { patch with Version := V2 } name key hlen] at heq
    simp only [Option.some.injEq] at heq
    have h := List.append_inj (List.append_cancel_left (List.append_cancel_left heq))
      (by rw [uint64ToBytes_length, uint64ToBytes_length])
    exact hne (uint64ToBytes_injective _ _ hv hv2 h.1)
  · intro name2 hne heq
    rw [patchMACWritten_eq alg _ name2 key hlen, patchMACWritten_eq alg patch name key hlen] at heq
    simp only [Option.some.injEq] at heq
    exact hne (List.append_cancel_left (List.append_cancel_left (List.append_cancel_left heq)))

theorem contentMACWritten_sensitive (alg : KeyedHash) (key : Bytes) (operation : Int)
    (data keyID : Bytes) :
    (∀ operation2 : Int, operation2 % 256 ≠ operation % 256 →
      contentMACWritten alg operation2 data keyID key ≠
        contentMACWritten alg operation data keyID key) ∧
    (∀ keyID2 : Bytes, keyID2 ≠ keyID →
      contentMACWritten alg operation data keyID2 key ≠
        contentMACWritten alg operation data keyID key) ∧
    (∀ data2 : Bytes, data2 ≠ data →
      contentMACWritten alg operation data2 keyID key ≠
        contentMACWritten alg operation data keyID key) := by
  refine ⟨?_, ?_, ?_⟩
  · intro operation2 hne heq
    rw [contentMACWritten_eq, contentMACWritten_eq] at heq
    have hhead : operationByte operation2 = operationByte operation := by
      simpa using congrArg List.head? heq
    unfold operationByte at hhead
    omega
  · intro keyID2 hne heq
    rw [contentMACWritten_eq, contentMACWritten_eq] at heq
    have htail := List.append_cancel_left heq
    have hlen := congrArg List.length htail
    simp only [List.length_append, uint64ToBytes_length] at hlen
    rw [List.append_assoc, List.append_assoc] at htail
    exact hne (List.append_inj htail (by omega)).1
  · intro data2 hne heq
    rw [contentMACWritten_eq, contentMACWritten_eq] at heq
    exact hne (List.append_cancel_left
      (List.append_cancel_right (List.append_cancel_left heq)))

/-- C11 fails as stated: the operation codes 0 (SET) and 256, two values of the `int32`
enum type, give the same bytes to the keyed hash, all other inputs being the same, and so
the same content MAC. -/
theorem mac_sensitivity_counterexample :
    SyncdMutation_SET ≠ 256 ∧
    contentMACWritten (checksumHash 64) 256 [3] [1] [9] =
      contentMACWritten (checksumHash 64) SyncdMutation_SET [3] [1] [9] ∧
    generateContentMAC (checksumHash 64) 256 [3] [1] [9] =
      generateContentMAC (checksumHash 64) SyncdMutation_SET [3] [1] [9] := by
  decide

/-- C11, as amended: each of `generateSnapshotMAC`, `generatePatchMAC` and
`generateContentMAC` is a function of its explicit inputs, namely the keyed hash of the
bytes it writes (truncated to 32 bytes for the content MAC). Changing exactly one input
field while the others are held fixed changes those bytes: the accumulator bytes, the
64-bit version or the collection name for the snapshot MAC; the 32-byte fingerprint of any
one mutation, the snapshot commitment, the 64-bit declared version or the collection name
for the patch MAC of a patch whose value blobs have 32 bytes or more; the operation code
when the new code differs from the old one modulo 256 (as SET and REMOVE do), the key id or
the data for the content MAC. The MAC then changes whenever the keyed hash does not
collide on the two messages. -/
theorem mac_sensitivity (sha256New sha512New : KeyedHash) (key name : Bytes)
    (hs : HashState) (patch : SyncdPatch) (operation : Int) (data keyID : Bytes) :
    (hs.generateSnapshotMAC sha256New name key =
        sha256New key (hs.snapshotMACWritten sha256New name key) ∧
      generatePatchMAC sha256New patch name key =
        (patchMACWritten sha256New patch name key).map (sha256New key) ∧
      generateContentMAC sha512New operation data keyID key =
        first32 (sha512New key (contentMACWritten sha512New operation data keyID key))) ∧
    ((∀ H2 : Hash128, H2 ≠ hs.Hash →
        HashState.snapshotMACWritten sha256New { hs with Hash := H2 } name key ≠
          hs.snapshotMACWritten sha256New name key) ∧
      (∀ V2 : Nat, hs.Version < 2 ^ 64 → V2 < 2 ^ 64 → V2 ≠ hs.Version →
        HashState.snapshotMACWritten sha256New { hs with Version := V2 } name key ≠
          hs.snapshotMACWritten sha256New name key) ∧
      (∀ name2 : Bytes, name2 ≠ name →
        hs.snapshotMACWritten sha256New name2 key ≠ hs.snapshotMACWritten sha256New name key)) ∧
    ((∀ m ∈ patch.Mutations, 32 ≤ m.ValueBlob.length) →
      (∀ (before after : List SyncdMutation) (m : SyncdMutation) (blob2 : Bytes),
        patch.Mutations = before ++ m :: after → 32 ≤ blob2.length →
        trailing32 blob2 ≠ trailing32 m.ValueBlob →
        patchMACWritten sha256New
            { patch with Mutations := (before ++ { m with ValueBlob := blob2 } :: after) }
            name key ≠
          patchMACWritten sha256New patch name key) ∧
      (∀ S2 : Bytes, S2 ≠ patch.SnapshotMac →
        patchMACWritten sha256New { patch with SnapshotMac := S2 } name key ≠
          patchMACWritten sha256New patch name key) ∧
      (∀ V2 : Nat, patch.Version < 2 ^ 64 → V2 < 2 ^ 64 → V2 ≠ patch.Version →
        patchMACWritten sha256New { patch with Version := V2 } name key ≠
          patchMACWritten sha256New patch name key) ∧
      (∀ name2 : Bytes, name2 ≠ name →
        patchMACWritten sha256New patch name2 key ≠ patchMACWritten sha256New patch name key)) ∧
    ((∀ operation2 : Int, operation2 % 256 ≠ operation % 256 →
        contentMACWritten sha512New operation2 data keyID key ≠
          contentMACWritten sha512New operation data keyID key) ∧
      (∀ keyID2 : Bytes, keyID2 ≠ keyID →
        contentMACWritten sha512New operation data keyID2 key ≠
          contentMACWritten sha512New operation data keyID key) ∧
      (∀ data2 : Bytes, data2 ≠ data →
        contentMACWritten sha512New operation data2 keyID key ≠
          contentMACWritten sha512New operation data keyID key)) :=
  ⟨⟨generateSnapshotMAC_of_written sha256New hs name key,
      generatePatchMAC_of_written sha256New patch name key,
      generateContentMAC_of_written sha512New operation data keyID key⟩,
    snapshotMACWritten_sensitive sha256New key hs name,
    patchMACWritten_sensitive sha256New key patch name,
    contentMACWritten_sensitive sha512New key operation data keyID⟩

/-- C11 as amended, on concrete inputs: REMOVE in place of SET changes the message of the
content MAC, and another fingerprint for the second mutation of `patchTwoValues` changes
the message of the patch MAC. -/
theorem mac_sensitivity_witness :
    contentMACWritten (checksumHash 64) SyncdMutation_REMOVE [3] [1] [9] ≠
      contentMACWritten (checksumHash 64) SyncdMutation_SET [3] [1] [9] ∧
    patchMACWritten (checksumHash 32)
        { patchTwoValues with Mutations := (patchTwoValues.Mutations.take 1 ++
          { removeEight with ValueBlob := fpOne } :: []) }
        [110] [1, 2] ≠
      patchMACWritten (checksumHash 32) patchTwoValues [110] [1, 2] :=
  have h := mac_sensitivity (checksumHash 32) (checksumHash 64) [1, 2] [110] NewHashState
    patchTwoValues SyncdMutation_SET [3] [1]
  ⟨(mac_sensitivity (checksumHash 32) (checksumHash 64) [9] [110] NewHashState
      patchTwoValues SyncdMutation_SET [3] [1]).2.2.2.1 SyncdMutation_REMOVE (by decide),
    (h.2.2.1 (by decide)).1 (patchTwoValues.Mutations.take 1) [] removeEight fpOne rfl
      (by decide) (by decide)⟩

/-! ## The accumulator invariant and other operation codes -/

theorem bytewiseVal_stateOne :
    bytewiseVal stateOne.Hash = combination bytewiseEnc storeOne := by
  show bytewiseVal (bytewiseSubtractThenAdd NewHashState.Hash [] [fpOne]) = _
  rw [bytewise_combination, bytewiseVal_NewHashState]
  simp [combination, storeOne]

/-- C7 fails as stated: with the bytewise stand-in, a commutative-group combination, the
map `storeOne`, the state whose accumulator is the combination of that map, and the
faithful lookup, `updateHash` succeeds on a patch whose one mutation has the operation
code 2 on `indexOne`: the lookup finds `fpOne`, which is subtracted, while the map, which
knows SET and REMOVE only, keeps its entry. The accumulator after the call is not the
combination of the map after the patch. -/
theorem updateHash_accumulator_invariant_counterexample :
    Store.IsMap storeOne ∧
    (∀ acc removed added, bytewiseVal (bytewiseSubtractThenAdd acc removed added) =
      bytewiseVal acc - (removed.map bytewiseEnc).sum + (added.map bytewiseEnc).sum) ∧
    bytewiseVal stateOne.Hash = combination bytewiseEnc storeOne ∧
    stateOne.updateHash bytewiseSubtractThenAdd patchOtherCode
        (faithfulLookup storeOne patchOtherCode.Mutations) =
      some (none, { stateOne with
        Hash := (bytewiseSubtractThenAdd stateOne.Hash [fpOne] []) }) ∧
    Store.applyAll storeOne patchOtherCode.Mutations = storeOne ∧
    bytewiseVal (bytewiseSubtractThenAdd stateOne.Hash [fpOne] []) ≠
      combination bytewiseEnc (Store.applyAll storeOne patchOtherCode.Mutations) := by
  refine ⟨by decide, bytewise_combination, bytewiseVal_stateOne, rfl, by decide, ?_⟩
  intro h
  have hzero : bytewiseSubtractThenAdd stateOne.Hash [fpOne] [] = NewHashState.Hash :=
    bytewise_undo NewHashState.Hash
      (by intro b hb; rw [List.eq_of_mem_replicate hb]; decide) fpOne
  rw [hzero, bytewiseVal_NewHashState] at h
  have h0 := congrFun h 0
  simp [combination, Store.applyAll, Store.apply, patchOtherCode, SyncdMutation_SET,
    SyncdMutation_REMOVE, storeOne, bytewiseEnc, fpOne] at h0
  exact absurd h0 (by decide)

end Appstate
